import Mathlib

/-!
Verification of the streaming prototype-clustering pipeline of the
enterprise-log-analyzer backend.  The Python services are shallowly embedded:
pure fragments become Lean functions over `ℚ`, `String`/`List Char` and lists;
the Redis/Chroma/LLM side effects are represented by explicit state values and
outcome parameters.  Floating point arithmetic is modelled by exact rational
arithmetic; `math.sqrt` is modelled by `ratSqrt`, which agrees with the real
square root on perfect-square rationals (all concrete inputs evaluated below
keep every square root on a perfect square, so the model and the Python float
computation coincide there).
-/

namespace LogAnalyzer

/-! ## Shared rational vector math (app/services/clustering_service.py) -/

/-- Exact rational square root: on a nonnegative rational that is the square of
a rational it returns that square root; this is the embedding of `math.sqrt`
used by `_l2_norm` (the theorems below only evaluate it on perfect squares). -/
def ratSqrt (q : ℚ) : ℚ :=
  (Nat.sqrt q.num.toNat : ℚ) / (Nat.sqrt q.den : ℚ)

/-- Embedding of `_l2_norm`: `math.sqrt(sum(v*v for v in vec)) or 1.0`, i.e.
the square root of the sum of squares, with `0.0` replaced by `1.0`. -/
def l2Norm (v : List ℚ) : ℚ :=
  let s := ratSqrt ((v.map (fun x => x * x)).sum)
  if s = 0 then 1 else s

/-- Embedding of `_normalize`: divide every component by the `_l2_norm`. -/
def normalizeVec (v : List ℚ) : List ℚ :=
  v.map (fun x => x / l2Norm v)

/-- Dot product via `zip`, as in `sum(x * y for x, y in zip(a, b))`. -/
def dotList (a b : List ℚ) : ℚ :=
  (List.zipWith (fun x y => x * y) a b).sum

/-- Embedding of `_cosine_distance`: `1 - max(min(dot, 1), -1)`. -/
def cosineDistance (a b : List ℚ) : ℚ :=
  1 - max (min (dotList a b) 1) (-1)

/-- Embedding of `_mean`: componentwise mean, the dimension taken from the
first vector (missing components of shorter vectors read as `0`). -/
def meanVec (vs : List (List ℚ)) : List ℚ :=
  match vs with
  | [] => []
  | v :: _ =>
      (List.range v.length).map
        (fun i => (vs.map (fun w => w.getD i 0)).sum / (vs.length : ℚ))

/-! ## Online clusterer (app/services/online_clustering.py) -/

/-- Embedding of `_suffix_for_os`: canonical OS suffix for collection names. -/
def suffixForOs (osName : String) : String :=
  let key := osName.trim.toLower
  if key = "mac" ∨ key = "macos" ∨ key = "osx" then "macos"
  else if key = "linux" then "linux"
  else if key = "windows" ∨ key = "win" then "windows"
  else if key = "" then "unknown" else key

/-- Embedding of `_proto_collection_name` with the default
`CHROMA_PROTO_COLLECTION_PREFIX = "proto_"`. -/
def protoCollectionName (osName : String) : String :=
  "proto_" ++ suffixForOs osName

/-- Result row of `nearest_prototype`: id, document and sanitized distance
(`none` models a missing or non-finite distance). -/
structure NearestItem where
  id : String
  document : String
  distance : Option ℚ
  deriving Repr, DecidableEq

/-- Metadata written for a freshly created online prototype (the dictionary
passed to `collection.add` in `assign_or_create_cluster`). -/
structure ProtoMeta where
  os : String
  label : String
  rationale : String
  size : Nat
  exemplar_count : Nat
  created_by : String
  embedding_mode : String
  deriving Repr, DecidableEq

/-- A prototype row of a `proto_<os>` collection. -/
structure Proto where
  id : String
  document : String
  meta : ProtoMeta
  deriving Repr, DecidableEq

/-- Choice of the text to embed in `assign_or_create_cluster`:
`raw_log if (use_raw and raw_log) else templated`. -/
def textToEmbed (useRaw : Bool) (rawLog : Option String) (templated : String) : String :=
  match rawLog with
  | some r => if useRaw ∧ r ≠ "" then r else templated
  | none => templated

/-- Result of one call to `assign_or_create_cluster`: the returned id, the
`proto_<os>` collection after the call, and the `is_new` flag recorded by the
metrics hook. -/
structure AssignResult where
  cluster_id : String
  store : List Proto
  is_new : Bool
  deriving Repr, DecidableEq

/-- The prototype inserted by the create branch of `assign_or_create_cluster`:
document is the embedded text, metadata has `label="unknown"`,
`created_by="online"`, the embedding mode and `size 1`. -/
def newOnlineProto (osName text : String) (useRaw : Bool) (cid : String) : Proto :=
  { id := cid
    document := text
    meta :=
      { os := osName
        label := "unknown"
        rationale := "online"
        size := 1
        exemplar_count := 0
        created_by := "online"
        embedding_mode := if useRaw then "raw" else "templated" } }

/-- Embedding of `assign_or_create_cluster`.  The Chroma query is represented
by its result `nearest` (the 1-nearest prototype row, `none` when the
collection is empty or the query failed), the fresh `uuid4().hex[:12]` value by
`freshHex`, and the success of the best-effort `collection.add` by `insertOk`
(the code swallows any insertion failure and still returns the new id). -/
def assign_or_create_cluster (osName text : String) (useRaw : Bool) (thresh : ℚ)
    (nearest : Option NearestItem) (freshHex : String) (insertOk : Bool)
    (store : List Proto) : AssignResult :=
  let assigned : Option String :=
    match nearest with
    | some item =>
        match item.distance with
        | some d => if d ≤ thresh ∧ item.id ≠ "" then some item.id else none
        | none => none
    | none => none
  match assigned with
  | some cid => { cluster_id := cid, store := store, is_new := false }
  | none =>
      let cid := "cluster_" ++ freshHex
      { cluster_id := cid
        store := if insertOk then store ++ [newOnlineProto osName text useRaw cid] else store
        is_new := true }

/-! ## Claims C1 and C10: online assign-or-create -/

/-- C1: for every call to the online clusterer, if the 1-nearest prototype
exists with a finite distance ≤ the threshold then its id is returned and the
store is untouched (`is_new = false`); otherwise a fresh `cluster_<hex>` id is
returned and (the insert succeeding) a prototype is appended whose document is
the embedded text and whose metadata has label "unknown", created_by "online",
the embedding mode and size 1. -/
theorem assign_or_create_cluster_spec (osName text : String) (useRaw : Bool)
    (thresh : ℚ) (nearest : Option NearestItem) (freshHex : String)
    (store : List Proto) (hid : ∀ item ∈ nearest, item.id ≠ "") :
    (∀ item d, nearest = some item → item.distance = some d → d ≤ thresh →
      assign_or_create_cluster osName text useRaw thresh nearest freshHex true store
        = { cluster_id := item.id, store := store, is_new := false }) ∧
    ((∀ item d, nearest = some item → item.distance = some d → thresh < d) →
      assign_or_create_cluster osName text useRaw thresh nearest freshHex true store
        = { cluster_id := "cluster_" ++ freshHex
            store := store ++ [newOnlineProto osName text useRaw ("cluster_" ++ freshHex)]
            is_new := true }) := by
  constructor
  · intro item d hn hd hle
    subst hn
    have hne : item.id ≠ "" := hid item rfl
    simp [assign_or_create_cluster, hd, hle, hne]
  · intro hgt
    cases hn : nearest with
    | none => simp [assign_or_create_cluster]
    | some item =>
        cases hd : item.distance with
        | none => simp [assign_or_create_cluster, hd]
        | some d =>
            have : ¬ (d ≤ thresh ∧ item.id ≠ "") := by
              intro hc
              exact absurd hc.1 (not_le.mpr (hgt item d hn hd))
            simp [assign_or_create_cluster, hd, this]

/-- Witness for C1 at a concrete call: nearest prototype at distance 1/10 with
threshold 1/4 is reused. -/
theorem assign_or_create_cluster_spec_witness :
    assign_or_create_cluster "linux" "tmpl" false (1/4)
        (some ⟨"cluster_abc", "doc", some (1/10)⟩) "deadbeef" true []
      = { cluster_id := "cluster_abc", store := [], is_new := false } :=
  (assign_or_create_cluster_spec "linux" "tmpl" false (1/4)
      (some ⟨"cluster_abc", "doc", some (1/10)⟩) "deadbeef" []
      (by intro item h; cases h; decide)).1
    ⟨"cluster_abc", "doc", some (1/10)⟩ (1/10) rfl rfl (by norm_num)

/-- C10: when the create branch runs and the prototype insert fails, the
exception is swallowed: the fresh `cluster_<hex>` id is still returned while
the store is unchanged, so the returned id corresponds to no persisted
prototype. -/
theorem assign_or_create_cluster_insert_failure (osName text : String)
    (useRaw : Bool) (thresh : ℚ) (nearest : Option NearestItem)
    (freshHex : String) (store : List Proto)
    (hmiss : ∀ item d, nearest = some item → item.distance = some d → thresh < d)
    (hfresh : ("cluster_" ++ freshHex) ∉ store.map Proto.id) :
    (assign_or_create_cluster osName text useRaw thresh nearest freshHex false
        store).cluster_id = "cluster_" ++ freshHex ∧
    (assign_or_create_cluster osName text useRaw thresh nearest freshHex false
        store).store = store ∧
    (assign_or_create_cluster osName text useRaw thresh nearest freshHex false
        store).cluster_id ∉
      ((assign_or_create_cluster osName text useRaw thresh nearest freshHex false
        store).store.map Proto.id) := by
  have hbranch :
      assign_or_create_cluster osName text useRaw thresh nearest freshHex false store
        = { cluster_id := "cluster_" ++ freshHex, store := store, is_new := true } := by
    cases hn : nearest with
    | none => simp [assign_or_create_cluster]
    | some item =>
        cases hd : item.distance with
        | none => simp [assign_or_create_cluster, hd]
        | some d =>
            have : ¬ (d ≤ thresh ∧ item.id ≠ "") := by
              intro hc
              exact absurd hc.1 (not_le.mpr (hmiss item d hn hd))
            simp [assign_or_create_cluster, hd, this]
  rw [hbranch]
  exact ⟨rfl, rfl, hfresh⟩

/-- Witness for C10 at a concrete call: empty collection, failed insert, the
minted id is returned but persisted nowhere. -/
theorem assign_or_create_cluster_insert_failure_witness :
    (assign_or_create_cluster "linux" "tmpl" false (1/4) none "deadbeef" false
        []).cluster_id = "cluster_deadbeef" ∧
    (assign_or_create_cluster "linux" "tmpl" false (1/4) none "deadbeef" false
        []).store = [] ∧
    (assign_or_create_cluster "linux" "tmpl" false (1/4) none "deadbeef" false
        []).cluster_id ∉
      ((assign_or_create_cluster "linux" "tmpl" false (1/4) none "deadbeef" false
        []).store.map Proto.id) :=
  assign_or_create_cluster_insert_failure "linux" "tmpl" false (1/4) none
    "deadbeef" [] (by intro item d h; cases h) (by simp)

/-! ## Cluster-count candidates (app/streams/issues_aggregator.py, lines 156-201) -/

/-- State of the per-cluster counters (`cluster:count:<os>:<cluster_id>`, an
atomic Redis counter modelled as a total map) together with the
`clusters_candidates` stream. -/
structure CandState where
  counters : String × String → ℕ
  candidates : List (String × String)

/-- One processed message of the aggregator loop, as far as the counter block
is concerned: the derived `os`, the `cluster_id` returned by the online
clusterer (`""` when it raised), and whether the `collection.get` lookup of
the `logs_<os>` row for this message id returned non-empty metadata.  When it
did not, the `continue` at lines 175-177 skips the rest of the loop body,
counter block included; an exception inside the same `try` block instead
falls through to the counter block (`except Exception: pass`) and is
therefore modelled as `logDocFound = true`. -/
structure AggLogMsg where
  os : String
  cid : String
  logDocFound : Bool

/-- Embedding of one loop iteration restricted to the counter block (lines
191-201): reached only when the persistence guard did not `continue`; skip
when `cluster_id` is falsy, otherwise `INCR` the counter and append
`{os, cluster_id}` to the candidates stream exactly when the post-increment
value equals `CLUSTER_MIN_LOGS_FOR_CLASSIFICATION` (the parameter `N`). -/
def clusterCountStep (N : ℕ) (st : CandState) (msg : AggLogMsg) : CandState :=
  if !msg.logDocFound then st
  else if msg.cid = "" then st
  else
    let k := (msg.os, msg.cid)
    let newCount := st.counters k + 1
    { counters := fun k2 => if k2 = k then newCount else st.counters k2
      candidates := if newCount = N then st.candidates ++ [k] else st.candidates }

/-- A run of the single aggregator over a list of processed messages. -/
def clusterCountRun (N : ℕ) (msgs : List AggLogMsg) (st : CandState) : CandState :=
  msgs.foldl (fun s m => clusterCountStep N s m) st

/-- The aggregator's initial state: all counters at zero, no candidate yet. -/
def candInit : CandState := { counters := fun _ => 0, candidates := [] }

/-- Key lemma for C4: along any run the number of emitted candidates for a key
is `1` exactly when its counter has reached the threshold, `0` below it. -/
theorem clusterCountRun_count_invariant (N : ℕ) (msgs : List AggLogMsg)
    (st : CandState) (key : String × String)
    (h : st.candidates.count key = if N ≤ st.counters key then 1 else 0) :
    (clusterCountRun N msgs st).candidates.count key
      = if N ≤ (clusterCountRun N msgs st).counters key then 1 else 0 := by
  induction msgs generalizing st with
  | nil => exact h
  | cons m rest ih =>
      apply ih
      by_cases hpers : m.logDocFound
      · by_cases hcid : m.cid = ""
        · simpa [clusterCountStep, hpers, hcid] using h
        · by_cases hkey : key = (m.os, m.cid)
          · subst hkey
            by_cases hhit : st.counters (m.os, m.cid) + 1 = N
            · have hlt : ¬ N ≤ st.counters (m.os, m.cid) := by omega
              simp [clusterCountStep, hpers, hcid, hhit, hlt] at h ⊢
              omega
            · have : (N ≤ st.counters (m.os, m.cid) + 1)
                  ↔ (N ≤ st.counters (m.os, m.cid)) := by
                omega
              simp [clusterCountStep, hpers, hcid, hhit, this, h]
          · by_cases hhit : st.counters (m.os, m.cid) + 1 = N
            · simp [clusterCountStep, hpers, hcid, hhit, hkey,
                List.count_append, h, Ne.symm hkey]
            · simp [clusterCountStep, hpers, hcid, hhit, hkey, h]
      · have hp : m.logDocFound = false := by
          cases hb : m.logDocFound
          · rfl
          · exact absurd hb hpers
        simpa [clusterCountStep, hp] using h

/-- C4: the claim fails as stated.  A processed log whose `logs_<os>` row is
not yet persisted takes the `continue` at lines 175-177 before the counter
block: with threshold 1 a message carrying the non-empty cluster id
`cluster_a` leaves its counter at 0 and emits no candidate, though the claim
demands an increment and (at threshold 1) a candidate for every processed
log with a non-empty `cluster_id`. -/
theorem clusterCandidate_unpersisted_skip :
    (AggLogMsg.mk "linux" "cluster_a" false).cid ≠ "" ∧
    (clusterCountRun 1 [AggLogMsg.mk "linux" "cluster_a" false]
        candInit).counters ("linux", "cluster_a") = 0 ∧
    (clusterCountRun 1 [AggLogMsg.mk "linux" "cluster_a" false]
        candInit).candidates = [] := by
  refine ⟨by decide, ?_, ?_⟩ <;>
    simp [clusterCountRun, clusterCountStep, candInit]

/-- C4 (amended): for every processed log that passes the persistence guard
(`logs_<os>` row found, so the `continue` at lines 175-177 is not taken) and
has a non-empty `cluster_id`, the counter is incremented and a candidate is
appended exactly when the post-increment value equals the threshold; a log
skipped by the guard changes nothing; consequently, starting from fresh
counters, a single aggregator emits at most one candidate per
`(os, cluster_id)`. -/
theorem clusterCandidate_persisted_at_most_once (N : ℕ) (hN : 1 ≤ N)
    (msgs : List AggLogMsg) (key : String × String) :
    (∀ (st : CandState) (msg : AggLogMsg), msg.logDocFound = true →
      msg.cid ≠ "" →
      (clusterCountStep N st msg).counters (msg.os, msg.cid)
          = st.counters (msg.os, msg.cid) + 1 ∧
      (clusterCountStep N st msg).candidates
          = (if st.counters (msg.os, msg.cid) + 1 = N
             then st.candidates ++ [(msg.os, msg.cid)] else st.candidates)) ∧
    (∀ (st : CandState) (msg : AggLogMsg), msg.logDocFound = false →
      clusterCountStep N st msg = st) ∧
    (clusterCountRun N msgs candInit).candidates.count key ≤ 1 := by
  refine ⟨?_, ?_, ?_⟩
  · intro st msg hpers hcid
    constructor
    · simp [clusterCountStep, hpers, hcid]
    · simp [clusterCountStep, hpers, hcid]
  · intro st msg hpers
    simp [clusterCountStep, hpers]
  · have hN0 : ¬ N ≤ 0 := by omega
    have h := clusterCountRun_count_invariant N msgs candInit key
      (by simp [candInit, hN0])
    rw [h]
    split <;> omega

/-- Witness for the amended C4 theorem: with threshold 2, four messages for
the same key of which the second is skipped by the persistence guard emit
exactly one candidate (at the second effective increment) and leave the
counter at 3. -/
theorem clusterCandidate_persisted_at_most_once_witness :
    (1 ≤ 2 ∧
      (clusterCountRun 2 [AggLogMsg.mk "linux" "cluster_a" true,
          AggLogMsg.mk "linux" "cluster_a" false,
          AggLogMsg.mk "linux" "cluster_a" true,
          AggLogMsg.mk "linux" "cluster_a" true]
        candInit).candidates.count ("linux", "cluster_a") ≤ 1) ∧
    (clusterCountRun 2 [AggLogMsg.mk "linux" "cluster_a" true,
        AggLogMsg.mk "linux" "cluster_a" false,
        AggLogMsg.mk "linux" "cluster_a" true,
        AggLogMsg.mk "linux" "cluster_a" true]
      candInit).candidates = [("linux", "cluster_a")] ∧
    (clusterCountRun 2 [AggLogMsg.mk "linux" "cluster_a" true,
        AggLogMsg.mk "linux" "cluster_a" false,
        AggLogMsg.mk "linux" "cluster_a" true,
        AggLogMsg.mk "linux" "cluster_a" true]
      candInit).counters ("linux", "cluster_a") = 3 := by
  refine ⟨⟨by decide, ?_⟩, ?_, ?_⟩
  · exact (clusterCandidate_persisted_at_most_once 2 (by decide)
      [AggLogMsg.mk "linux" "cluster_a" true,
        AggLogMsg.mk "linux" "cluster_a" false,
        AggLogMsg.mk "linux" "cluster_a" true,
        AggLogMsg.mk "linux" "cluster_a" true]
      ("linux", "cluster_a")).2.2
  · simp [clusterCountRun, clusterCountStep, candInit]
  · simp [clusterCountRun, clusterCountStep, candInit]

/-! ## Drift alerts (app/streams/metrics_aggregator.py, check_drift_alerts) -/

/-- One hourly `cluster_metrics:online:<os>:<hour>` entry as returned by
`get_online_metrics` (only hours with data are present). -/
structure OnlineMetricEntry where
  new_clusters : ℕ
  total_assignments : ℕ
  deriving Repr, DecidableEq

/-- The fields of a drift alert dictionary relevant to the drift check (the
human-readable `message` and the wall-clock `timestamp` are not modelled). -/
structure DriftAlert where
  type : String
  severity : String
  os : String
  metric : String
  value : ℚ
  threshold : ℚ
  deriving Repr, DecidableEq

/-- Embedding of `check_drift_alerts`: with fewer than two hourly entries, or
zero total assignments, no alert; otherwise an alert exactly when the
new-cluster rate exceeds 0.15. -/
def check_drift_alerts (osName : String) (metrics : List OnlineMetricEntry) :
    List DriftAlert :=
  if metrics.length < 2 then []
  else
    let totalNew : ℕ := (metrics.map (fun m => m.new_clusters)).sum
    let totalAssign : ℕ := (metrics.map (fun m => m.total_assignments)).sum
    if totalAssign = 0 then []
    else
      let newRate : ℚ := (totalNew : ℚ) / (totalAssign : ℚ)
      if 15/100 < newRate then
        [{ type := "high_drift", severity := "warning", os := osName
           metric := "new_cluster_rate", value := newRate, threshold := 15/100 }]
      else []

/-- Counterexample for C6: a window whose metrics collapse into a single
hourly entry with 1000 assignments and 200 new clusters (rate 0.20 > 0.15,
at least one assignment) produces no alert, because the code additionally
requires at least two hourly entries. -/
theorem check_drift_alerts_single_entry_no_alert :
    check_drift_alerts "linux" [⟨200, 1000⟩] = [] ∧
    ((1000 : ℕ) ≠ 0 ∧ (15/100 : ℚ) < (200 : ℚ) / (1000 : ℚ)) := by
  constructor
  · rfl
  · constructor
    · decide
    · norm_num

/-- C6 (amended): whenever the drift window holds at least two hourly entries,
some assignment occurred, and the new-cluster rate exceeds 0.15, the check
emits exactly the `high_drift`/`warning` alert on `new_cluster_rate` with
value `new/total` and threshold 0.15. -/
theorem check_drift_alerts_fires (osName : String)
    (metrics : List OnlineMetricEntry) (h2 : 2 ≤ metrics.length)
    (hpos : (metrics.map (fun m => m.total_assignments)).sum ≠ 0)
    (hrate : (15/100 : ℚ) <
      (((metrics.map (fun m => m.new_clusters)).sum : ℕ) : ℚ)
        / (((metrics.map (fun m => m.total_assignments)).sum : ℕ) : ℚ)) :
    check_drift_alerts osName metrics
      = [{ type := "high_drift", severity := "warning", os := osName
           metric := "new_cluster_rate"
           value := (((metrics.map (fun m => m.new_clusters)).sum : ℕ) : ℚ)
             / (((metrics.map (fun m => m.total_assignments)).sum : ℕ) : ℚ)
           threshold := 15/100 }] := by
  have hnotlt : ¬ metrics.length < 2 := by omega
  simp only [check_drift_alerts]
  split_ifs
  rfl

/-- Witness for C6 (amended) on two hourly entries totalling 200 new clusters
over 1000 assignments. -/
theorem check_drift_alerts_fires_witness :
    check_drift_alerts "linux" [⟨100, 500⟩, ⟨100, 500⟩]
      = [{ type := "high_drift", severity := "warning", os := "linux"
           metric := "new_cluster_rate"
           value := ((200 : ℚ) / (1000 : ℚ)), threshold := 15/100 }] := by
  have h := check_drift_alerts_fires "linux" [⟨100, 500⟩, ⟨100, 500⟩]
    (by decide) (by decide) (by norm_num)
  norm_num [DriftAlert.mk.injEq] at h ⊢
  exact h

/-! ## Issue enricher (app/streams/enricher.py and app/services/llm_service.py) -/

/-- A shallow JSON value, enough to model the dictionaries returned by the
LLM helpers. -/
inductive JVal where
  | jb (b : Bool)
  | jq (q : ℚ)
  | js (s : String)
  | jnull
  deriving Repr, DecidableEq

/-- A JSON object as an association list. -/
def JObj : Type := List (String × JVal)

/-- Outcome of the OpenAI chat call inside `_chat_json_with_openai`: either a
parsed JSON object, or an exception (API error or `json.loads` failure) whose
text is `excMsg`. -/
inductive LLMOutcome where
  | success (d : JObj)
  | failure (excMsg : String)

/-- Embedding of `_chat_json_with_openai`: any exception is caught and turned
into the fallback dictionary `{"raw": str(e), "error": "OpenAI API call
failed."}`. -/
def chat_json_with_openai (outcome : LLMOutcome) : JObj :=
  match outcome with
  | .success d => d
  | .failure e => [("raw", JVal.js e), ("error", JVal.js "OpenAI API call failed.")]

/-- Python truthiness of a JSON value, as used by `bool(result.get(...))`. -/
def jTruthy : JVal → Bool
  | .jb b => b
  | .jq q => q ≠ 0
  | .js s => s ≠ ""
  | .jnull => false

/-- The alert payload written to the `alerts` stream by the enricher (the
stream stringification of the normalized fields is kept at the value level). -/
structure EnricherAlert where
  type : String
  os : String
  issue_key : String
  is_hardware_failure : Bool
  failure_type : JVal
  confidence : Option JVal
  result : JObj
  log_ids : List String

/-- Result of handling one `issues_candidates` message: whether the message
was ACKed and the alert published (if the message body was processed without
an infrastructure exception). -/
structure EnrichStepResult where
  acked : Bool
  published : Option EnricherAlert

/-- Embedding of the per-message body of `run_enricher`: retrieval plus
`classify_issue` produce `result` (here: `chat_json_with_openai outcome`),
the alert is built and published; any exception in the body (`infraOk =
false`) is logged and swallowed; the `finally:` block ACKs in every case. -/
def run_enricher_step (osName issueKey : String) (logIds : List String)
    (infraOk : Bool) (outcome : LLMOutcome) : EnrichStepResult :=
  if infraOk then
    let result := chat_json_with_openai outcome
    { acked := true
      published := some
        { type := "issue"
          os := osName
          issue_key := issueKey
          is_hardware_failure := jTruthy ((result.lookup "is_hardware_failure").getD .jnull)
          failure_type := (result.lookup "failure_type").getD (.js "")
          confidence := result.lookup "confidence"
          result := result
          log_ids := logIds } }
  else { acked := true, published := none }

/-- C8: every `issues_candidates` message is ACKed regardless of the LLM
outcome, and when the LLM call fails the alert is still published with a
`result` object carrying the `raw` and `error` keys instead of the structured
classification. -/
theorem run_enricher_step_spec (osName issueKey : String) (logIds : List String)
    (infraOk : Bool) (outcome : LLMOutcome) :
    (run_enricher_step osName issueKey logIds infraOk outcome).acked = true ∧
    (∀ e, outcome = .failure e → infraOk = true →
      ∃ a, (run_enricher_step osName issueKey logIds infraOk outcome).published = some a ∧
        a.result = [("raw", JVal.js e), ("error", JVal.js "OpenAI API call failed.")] ∧
        (a.result.lookup "error").isSome ∧ (a.result.lookup "raw").isSome) := by
  constructor
  · cases infraOk <;> rfl
  · intro e hout hinfra
    subst hout hinfra
    refine ⟨_, rfl, rfl, ?_, ?_⟩ <;>
      simp [chat_json_with_openai, List.lookup]

/-- Witness for C8 at a concrete failing LLM call. -/
theorem run_enricher_step_spec_witness :
    (run_enricher_step "linux" "linux|sshd|1234" ["1-0"] true
        (.failure "timeout")).acked = true ∧
    ∃ a, (run_enricher_step "linux" "linux|sshd|1234" ["1-0"] true
        (.failure "timeout")).published = some a ∧
      a.result = [("raw", JVal.js "timeout"),
        ("error", JVal.js "OpenAI API call failed.")] := by
  have h := run_enricher_step_spec "linux" "linux|sshd|1234" ["1-0"] true
    (.failure "timeout")
  obtain ⟨hack, hres⟩ := h
  obtain ⟨a, hpub, hresult, _, _⟩ := hres "timeout" rfl rfl
  exact ⟨hack, a, hpub, hresult⟩

/-! ## In-memory issues and inactivity flush (app/streams/issues_aggregator.py) -/

/-- Whatever `List.lookup` finds is a member of the association list. -/
theorem lookup_mem {α β : Type} [BEq α] [LawfulBEq α] {l : List (α × β)}
    {k : α} {v : β} (h : l.lookup k = some v) : (k, v) ∈ l := by
  induction l with
  | nil => simp [List.lookup] at h
  | cons p rest ih =>
      rw [List.lookup] at h
      cases hp : (k == p.1) with
      | false =>
          rw [hp] at h
          exact List.mem_cons_of_mem _ (ih h)
      | true =>
          rw [hp] at h
          have hk : k = p.1 := eq_of_beq hp
          have hv : p.2 = v := by simpa using h
          subst hk hv
          exact List.mem_cons_self _ _

/-- One entry of `Issue.logs` as appended by `Issue.add_log`. -/
structure IssueLogEntry where
  raw : String
  templated : String
  parsed : List (String × String)
  ts : ℚ
  deriving Repr, DecidableEq

/-- Embedding of the in-memory `Issue` dataclass. -/
structure Issue where
  os : String
  key : String
  created_at : ℚ
  last_seen_at : ℚ
  logs : List IssueLogEntry
  deriving Repr, DecidableEq

/-- Embedding of `Issue.add_log`: append the entry stamped `now` and move
`last_seen_at` to `now`. -/
def Issue.add_log (i : Issue) (raw templated : String)
    (parsed : List (String × String)) (now : ℚ) : Issue :=
  { i with
    logs := i.logs ++ [{ raw := raw, templated := templated, parsed := parsed, ts := now }]
    last_seen_at := now }

/-- Embedding of `Issue.top_logs`: keep insertion order, cap the length. -/
def Issue.top_logs (i : Issue) (limit : ℕ) : List IssueLogEntry :=
  i.logs.take limit

/-- One serialized log row of an `issues_candidates` payload. -/
structure CandLogEntry where
  templated : String
  raw : String
  component : String
  pid : String
  time : ℚ
  deriving Repr, DecidableEq

/-- An `issues_candidates` stream entry as built by `_close_and_publish`. -/
structure IssueCandidate where
  os : String
  issue_key : String
  templated_summary : String
  logs : List CandLogEntry
  deriving Repr, DecidableEq

/-- Embedding of `_close_and_publish` (the payload construction): serialize at
most `ISSUE_MAX_LOGS_FOR_LLM` logs, in insertion order. -/
def close_and_publish (maxLogs : ℕ) (issue : Issue) : IssueCandidate :=
  { os := issue.os
    issue_key := issue.key
    templated_summary :=
      String.intercalate " \n" ((issue.top_logs maxLogs).map (fun l => l.templated))
    logs := (issue.top_logs maxLogs).map (fun l =>
      { templated := l.templated
        raw := l.raw
        component := (l.parsed.lookup "component").getD ""
        pid := (l.parsed.lookup "PID").getD ""
        time := l.ts }) }

/-- State owned by the aggregator loop: the insertion-ordered `_issues` map
and the `issues_candidates` entries published so far. -/
structure IssuesState where
  issues : List (String × Issue)
  published : List IssueCandidate

/-- Events of the aggregator loop relevant to issue lifecycle: processing one
log line (`now` is the loop-start timestamp used for a newly created issue,
`addTime` the `time.time()` taken inside `add_log`), and the idle sweep at the
bottom of an iteration. -/
inductive AggEvent where
  | procMsg (now addTime : ℚ) (osName key raw templated : String)
      (parsed : List (String × String))
  | sweep (now : ℚ)

/-- Embedding of the get-or-create-then-append block of the aggregator. -/
def procMsgStep (st : IssuesState) (now addTime : ℚ)
    (osName key raw templated : String) (parsed : List (String × String)) :
    IssuesState :=
  match st.issues.lookup key with
  | none =>
      let issue : Issue :=
        { os := osName, key := key, created_at := now, last_seen_at := now, logs := [] }
      { st with issues :=
          st.issues ++ [(key, issue.add_log raw templated parsed addTime)] }
  | some issue =>
      { st with issues :=
          st.issues.map (fun p =>
            if p.1 = key then (p.1, issue.add_log raw templated parsed addTime) else p) }

/-- Embedding of the idle sweep: every issue with
`now - last_seen_at ≥ ISSUE_INACTIVITY_SEC` is published and popped. -/
def sweepStep (inactivity : ℚ) (maxLogs : ℕ) (st : IssuesState) (now : ℚ) :
    IssuesState :=
  { issues := st.issues.filter (fun p => ¬ inactivity ≤ now - p.2.last_seen_at)
    published := st.published ++
      ((st.issues.filter (fun p => inactivity ≤ now - p.2.last_seen_at)).map
        (fun p => close_and_publish maxLogs p.2)) }

/-- One aggregator event applied to the state. -/
def aggEventStep (inactivity : ℚ) (maxLogs : ℕ) (st : IssuesState) :
    AggEvent → IssuesState
  | .procMsg now addTime osName key raw templated parsed =>
      procMsgStep st now addTime osName key raw templated parsed
  | .sweep now => sweepStep inactivity maxLogs st now

/-- A run of the aggregator over a list of events. -/
def aggRun (inactivity : ℚ) (maxLogs : ℕ) (events : List AggEvent)
    (st : IssuesState) : IssuesState :=
  events.foldl (aggEventStep inactivity maxLogs) st

/-- Start time of an event (the `time.time()` taken at the top of the loop). -/
def AggEvent.startTime : AggEvent → ℚ
  | .procMsg now _ _ _ _ _ _ => now
  | .sweep now => now

/-- End time of an event (the `time.time()` taken inside `add_log`). -/
def AggEvent.endTime : AggEvent → ℚ
  | .procMsg _ addTime _ _ _ _ _ => addTime
  | .sweep now => now

/-- Timestamps along a trace never decrease (wall-clock monotonicity between
loop iterations and between `now` and the `add_log` call). -/
def WellTimed (lo : ℚ) : List AggEvent → Prop
  | [] => True
  | e :: rest => lo ≤ e.startTime ∧ e.startTime ≤ e.endTime ∧ WellTimed e.endTime rest

/-- Invariant: every open issue was seen after it was created, and not after
the current clock; every published candidate carries at most `maxLogs` logs. -/
def IssuesInv (maxLogs : ℕ) (lo : ℚ) (st : IssuesState) : Prop :=
  (∀ p ∈ st.issues, p.2.created_at ≤ p.2.last_seen_at ∧ p.2.last_seen_at ≤ lo) ∧
  (∀ c ∈ st.published, c.logs.length ≤ maxLogs)

/-- Preservation of the issue invariant along any well-timed trace. -/
theorem aggRun_preserves_inv (inactivity : ℚ) (maxLogs : ℕ)
    (events : List AggEvent) (st : IssuesState) (lo : ℚ)
    (hTimes : WellTimed lo events) (hInv : IssuesInv maxLogs lo st) :
    ∃ hi, IssuesInv maxLogs hi (aggRun inactivity maxLogs events st) := by
  induction events generalizing st lo with
  | nil => exact ⟨lo, hInv⟩
  | cons e rest ih =>
      obtain ⟨hlo, hse, hrest⟩ := hTimes
      apply ih _ _ hrest
      have hle : lo ≤ e.endTime := le_trans hlo hse
      cases e with
      | procMsg now addTime osName key raw templated parsed =>
          simp only [AggEvent.startTime, AggEvent.endTime] at hlo hse hle
          obtain ⟨hIss, hPub⟩ := hInv
          constructor
          · intro p hp
            simp only [aggEventStep, procMsgStep] at hp
            cases hfind : st.issues.lookup key with
            | none =>
                rw [hfind] at hp
                simp only [List.mem_append, List.mem_singleton] at hp
                rcases hp with hp | hp
                · have := hIss p hp
                  exact ⟨this.1, le_trans this.2 hle⟩
                · subst hp
                  simp only [Issue.add_log]
                  exact ⟨hse, le_refl _⟩
            | some issue =>
                rw [hfind] at hp
                simp only [List.mem_map] at hp
                obtain ⟨q, hq, hpq⟩ := hp
                by_cases hk : q.1 = key
                · simp only [hk, if_true] at hpq
                  subst hpq
                  have hiss := hIss (key, issue) (lookup_mem hfind)
                  simp only [Issue.add_log]
                  exact ⟨le_trans (le_trans hiss.1 hiss.2) (le_trans hlo hse),
                    le_refl _⟩
                · simp only [hk, if_false] at hpq
                  subst hpq
                  have := hIss q hq
                  exact ⟨this.1, le_trans this.2 hle⟩
          · intro c hc
            simp only [aggEventStep, procMsgStep] at hc
            cases hfind : st.issues.lookup key with
            | none => rw [hfind] at hc; exact hPub c hc
            | some issue => rw [hfind] at hc; exact hPub c hc
      | sweep now =>
          simp only [AggEvent.startTime, AggEvent.endTime] at hlo hse hle
          obtain ⟨hIss, hPub⟩ := hInv
          constructor
          · intro p hp
            simp only [aggEventStep, sweepStep, List.mem_filter] at hp
            have := hIss p hp.1
            exact ⟨this.1, le_trans this.2 hle⟩
          · intro c hc
            simp only [aggEventStep, sweepStep, List.mem_append] at hc
            rcases hc with hc | hc
            · exact hPub c hc
            · simp only [List.mem_map] at hc
              obtain ⟨q, _, hq⟩ := hc
              subst hq
              simp only [close_and_publish, Issue.top_logs, List.length_map]
              exact le_trans (List.length_take_le _ _) (le_refl _)

/-- C9: along any well-timed aggregator trace started from an empty state,
every in-memory issue satisfies `last_seen_at ≥ created_at`, every published
`IssueCandidate` holds at most `ISSUE_MAX_LOGS_FOR_LLM` logs (truncated in
insertion order), and an idle sweep removes exactly the flushed issues from
memory while publishing their candidates. -/
theorem issues_aggregator_lifecycle (inactivity : ℚ) (maxLogs : ℕ)
    (events : List AggEvent) (lo : ℚ) (hTimes : WellTimed lo events) :
    (∀ p ∈ (aggRun inactivity maxLogs events ⟨[], []⟩).issues,
        p.2.created_at ≤ p.2.last_seen_at) ∧
    (∀ c ∈ (aggRun inactivity maxLogs events ⟨[], []⟩).published,
        c.logs.length ≤ maxLogs) ∧
    (∀ st now,
      (sweepStep inactivity maxLogs st now).issues
          = st.issues.filter (fun p => ¬ inactivity ≤ now - p.2.last_seen_at) ∧
      (sweepStep inactivity maxLogs st now).published
          = st.published ++
            ((st.issues.filter (fun p => inactivity ≤ now - p.2.last_seen_at)).map
              (fun p => close_and_publish maxLogs p.2))) := by
  obtain ⟨hi, h⟩ := aggRun_preserves_inv inactivity maxLogs events ⟨[], []⟩ lo
    hTimes (by constructor <;> intro x hx <;> simp at hx)
  exact ⟨fun p hp => (h.1 p hp).1, h.2, fun st now => ⟨rfl, rfl⟩⟩

/-- Witness for C9 on a concrete two-event trace: one message then a sweep
that flushes the issue. -/
theorem issues_aggregator_lifecycle_witness :
    WellTimed 0 [AggEvent.procMsg 1 1 "linux" "linux|sshd|1234" "raw" "tmpl" [],
      AggEvent.sweep 100] ∧
    (∀ p ∈ (aggRun 30 2 [AggEvent.procMsg 1 1 "linux" "linux|sshd|1234" "raw" "tmpl" [],
        AggEvent.sweep 100] ⟨[], []⟩).issues,
      p.2.created_at ≤ p.2.last_seen_at) ∧
    (∀ c ∈ (aggRun 30 2 [AggEvent.procMsg 1 1 "linux" "linux|sshd|1234" "raw" "tmpl" [],
        AggEvent.sweep 100] ⟨[], []⟩).published,
      c.logs.length ≤ 2) ∧
    (aggRun 30 2 [AggEvent.procMsg 1 1 "linux" "linux|sshd|1234" "raw" "tmpl" [],
        AggEvent.sweep 100] ⟨[], []⟩).issues = [] := by
  have hT : WellTimed 0 [AggEvent.procMsg 1 1 "linux" "linux|sshd|1234" "raw" "tmpl" [],
      AggEvent.sweep 100] := by
    simp only [WellTimed, AggEvent.startTime, AggEvent.endTime]
    norm_num
  have h := issues_aggregator_lifecycle 30 2
    [AggEvent.procMsg 1 1 "linux" "linux|sshd|1234" "raw" "tmpl" [],
      AggEvent.sweep 100] 0 hT
  refine ⟨hT, h.1, h.2.1, ?_⟩
  norm_num [aggRun, aggEventStep, procMsgStep, sweepStep, Issue.add_log,
    List.lookup, List.filter]

/-! ## Batch single-pass clusterer (app/services/clustering_service.py) -/

/-- Index of the first minimum of a list, as computed by
`min(range(len(distances)), key=lambda i: distances[i])`. -/
def argminIdx : List ℚ → ℕ
  | [] => 0
  | [_] => 0
  | x :: xs =>
      let j := argminIdx xs
      if xs.getD j 0 < x then j + 1 else 0

/-- The argmin of a nonempty list is a valid index. -/
theorem argminIdx_lt_length (l : List ℚ) (h : l ≠ []) : argminIdx l < l.length := by
  induction l with
  | nil => exact absurd rfl h
  | cons x xs ih =>
      cases xs with
      | nil => simp [argminIdx]
      | cons y ys =>
          have hlt := ih (List.cons_ne_nil y ys)
          rw [argminIdx]
          split_ifs
          · exact Nat.succ_lt_succ hlt
          · simp
          · intro hcon
            exact absurd hcon (List.cons_ne_nil y ys)

/-- Intermediate state of the single pass: the parallel `clusters` and
`centroids` lists. -/
structure SPState where
  clusters : List (List ℕ)
  centroids : List (List ℚ)

/-- One iteration of the `for idx, vec in enumerate(normalized)` loop of
`_single_pass_cluster`. -/
def spStep (threshold : ℚ) (normalized : List (List ℚ)) (st : SPState)
    (idx : ℕ) (vec : List ℚ) : SPState :=
  if st.centroids = [] then
    { clusters := st.clusters ++ [[idx]], centroids := st.centroids ++ [vec] }
  else
    let distances := st.centroids.map (fun c => cosineDistance vec c)
    let best := argminIdx distances
    if distances.getD best 0 ≤ threshold then
      let newCluster := (st.clusters.getD best []) ++ [idx]
      let members := newCluster.map (fun i => normalized.getD i [])
      { clusters := st.clusters.set best newCluster
        centroids := st.centroids.set best (normalizeVec (meanVec members)) }
    else
      { clusters := st.clusters ++ [[idx]], centroids := st.centroids ++ [vec] }

/-- Embedding of `_single_pass_cluster`: normalize, run the pass, then drop
clusters smaller than `max(1, min_size)`. -/
def _single_pass_cluster (embeddings : List (List ℚ)) (threshold : ℚ)
    (min_size : ℕ) : List (List ℕ) × List (List ℚ) :=
  let normalized := embeddings.map normalizeVec
  let final := normalized.enum.foldl
    (fun st p => spStep threshold normalized st p.1 p.2) ⟨[], []⟩
  let filtered := (final.clusters.zip final.centroids).filter
    (fun p => max 1 min_size ≤ p.1.length)
  (filtered.map Prod.fst, filtered.map Prod.snd)

/-- The property asserted by the spec invariant for §4.5: every reported
cluster meets the minimum size and every member's cosine distance to the
cluster's final centroid is within the threshold. -/
def SinglePassClaim (embeddings : List (List ℚ)) (threshold : ℚ)
    (min_size : ℕ) : Prop :=
  ∀ pc ∈ ((_single_pass_cluster embeddings threshold min_size).1.zip
      (_single_pass_cluster embeddings threshold min_size).2),
    min_size ≤ pc.1.length ∧
    ∀ i ∈ pc.1, cosineDistance (normalizeVec (embeddings.getD i [])) pc.2 ≤ threshold

/-- Counterexample for C2: a single zero embedding (spec §8 explicitly treats
zero-norm embeddings as unit norm 1) forms a singleton cluster whose centroid
is the zero vector, and the member's cosine distance to that final centroid is
`1 - 0 = 1`, above the default threshold 0.3; so the distance part of the
claimed invariant fails. -/
theorem single_pass_zero_vector_counterexample :
    ¬ SinglePassClaim [[0]] (3/10) 1 := by
  intro h
  have hz : normalizeVec [(0 : ℚ)] = [(0 : ℚ)] := by
    norm_num [normalizeVec, l2Norm, ratSqrt]
  have hrun : _single_pass_cluster [[0]] (3/10) 1 = ([[0]], [[(0 : ℚ)]]) := by
    simp only [_single_pass_cluster, List.map, hz, List.enum, List.enumFrom,
      List.foldl, spStep, List.zip, List.zipWith, List.filter]
    try norm_num
  have hmem : ([0], [(0 : ℚ)]) ∈
      ((_single_pass_cluster [[0]] (3/10) 1).1.zip
        (_single_pass_cluster [[0]] (3/10) 1).2) := by
    rw [hrun]
    simp
  have hdist := (h ([0], [(0 : ℚ)]) hmem).2 0 (by simp)
  rw [show ([[(0 : ℚ)]].getD 0 []) = [(0 : ℚ)] from rfl, hz] at hdist
  have : cosineDistance [(0 : ℚ)] [(0 : ℚ)] = 1 := by
    norm_num [cosineDistance, dotList]
  rw [this] at hdist
  norm_num at hdist

/-- Centroid of a cluster as maintained by the pass: the seed vector while the
cluster is a singleton, afterwards the normalized mean of all member vectors
(recomputed at every join). -/
def centroidOfMembers (normalized : List (List ℚ)) : List ℕ → List ℚ
  | [i] => normalized.getD i []
  | ms => normalizeVec (meanVec (ms.map (fun i => normalized.getD i [])))

/-- Every non-seed member of a cluster joined with cosine distance within the
threshold of the centroid its cluster had at the moment of joining. -/
def JoinOk (threshold : ℚ) (normalized : List (List ℚ)) (ms : List ℕ) : Prop :=
  ∀ j, 1 ≤ j → j < ms.length →
    cosineDistance (normalized.getD (ms.getD j 0) [])
      (centroidOfMembers normalized (ms.take j)) ≤ threshold

/-- Loop invariant of the single pass: clusters and centroids stay parallel,
clusters are nonempty, each stored centroid is the centroid of its members,
and all joins happened within the threshold. -/
def SPInv (threshold : ℚ) (normalized : List (List ℚ)) (st : SPState) : Prop :=
  st.clusters.length = st.centroids.length ∧
  ∀ k, k < st.clusters.length →
    st.clusters.getD k [] ≠ [] ∧
    st.centroids.getD k [] = centroidOfMembers normalized (st.clusters.getD k []) ∧
    JoinOk threshold normalized (st.clusters.getD k [])

/-- `getD` after `set` at the written index. -/
theorem getD_set_self {α : Type} {l : List α} {i : ℕ} (h : i < l.length)
    (a d : α) : (l.set i a).getD i d = a := by
  induction l generalizing i with
  | nil => simp at h
  | cons x t ih =>
      cases i with
      | zero => rfl
      | succ n => exact ih (by simpa using h)

/-- `getD` after `set` at a different index. -/
theorem getD_set_ne {α : Type} {l : List α} {i k : ℕ} (h : i ≠ k)
    (a d : α) : (l.set i a).getD k d = l.getD k d := by
  induction l generalizing i k with
  | nil => simp
  | cons x t ih =>
      cases i with
      | zero =>
          cases k with
          | zero => exact absurd rfl h
          | succ m => rfl
      | succ n =>
          cases k with
          | zero => rfl
          | succ m => exact ih (fun hc => h (congrArg Nat.succ hc))

/-- `getD` of an append, inside the left list. -/
theorem getD_append_left {α : Type} {l1 l2 : List α} {k : ℕ}
    (h : k < l1.length) (d : α) : (l1 ++ l2).getD k d = l1.getD k d := by
  induction l1 generalizing k with
  | nil => simp at h
  | cons x t ih =>
      cases k with
      | zero => rfl
      | succ n => exact ih (by simpa using h)

/-- `getD` of an append, right at the end of the left list. -/
theorem getD_append_len {α : Type} {l1 : List α} (x d : α) :
    (l1 ++ [x]).getD l1.length d = x := by
  induction l1 with
  | nil => rfl
  | cons y t ih => exact ih

/-- `getD` through `map` at a valid index. -/
theorem getD_map_lt {α β : Type} {l : List α} {i : ℕ} (h : i < l.length)
    (f : α → β) (d : β) (d2 : α) : (l.map f).getD i d = f (l.getD i d2) := by
  induction l generalizing i with
  | nil => simp at h
  | cons x t ih =>
      cases i with
      | zero => rfl
      | succ n => exact ih (by simpa using h)

/-- Appending a member to a nonempty cluster puts its centroid in the
normalized-mean case. -/
theorem centroidOfMembers_append (normalized : List (List ℚ)) (ms : List ℕ)
    (i : ℕ) (h : ms ≠ []) :
    centroidOfMembers normalized (ms ++ [i])
      = normalizeVec (meanVec ((ms ++ [i]).map (fun j => normalized.getD j []))) := by
  match ms with
  | [] => exact absurd rfl h
  | a :: t =>
      match t with
      | [] => rfl
      | b :: t2 => rfl

/-- The seed state of a fresh cluster satisfies the per-cluster invariant. -/
theorem seed_cluster_inv (threshold : ℚ) (normalized : List (List ℚ)) (idx : ℕ)
    (vec : List ℚ) (hvec : normalized.getD idx [] = vec) :
    ([idx] : List ℕ) ≠ [] ∧
    vec = centroidOfMembers normalized [idx] ∧
    JoinOk threshold normalized [idx] := by
  refine ⟨by simp, ?_, ?_⟩
  · rw [centroidOfMembers, hvec]
  · intro j hj1 hj2
    simp at hj2
    omega

/-- `spStep` preserves the single-pass invariant. -/
theorem spStep_preserves_inv (threshold : ℚ) (normalized : List (List ℚ))
    (st : SPState) (idx : ℕ) (vec : List ℚ)
    (hvec : normalized.getD idx [] = vec)
    (hinv : SPInv threshold normalized st) :
    SPInv threshold normalized (spStep threshold normalized st idx vec) := by
  obtain ⟨cls, cents⟩ := st
  obtain ⟨hlen, hk⟩ := hinv
  simp only at hlen hk
  by_cases hemp : cents = []
  · -- first point: seed the first cluster
    subst hemp
    have hcl0 : cls = [] := List.length_eq_zero.mp (by simpa using hlen)
    subst hcl0
    simp only [spStep, SPInv, eq_self_iff_true, if_true, List.nil_append]
    refine ⟨rfl, ?_⟩
    intro k hkl
    simp only [List.length_singleton] at hkl
    have hk0 : k = 0 := by omega
    subst hk0
    simpa using seed_cluster_inv threshold normalized idx vec hvec
  · -- at least one centroid exists
    simp only [spStep, if_neg hemp]
    set ds := cents.map (fun c => cosineDistance vec c) with hds
    have hdne : ds ≠ [] := by
      rw [hds]
      simpa using hemp
    have hbestc : argminIdx ds < cents.length := by
      have := argminIdx_lt_length ds hdne
      rw [hds] at this
      simpa using this
    have hbestl : argminIdx ds < cls.length := by omega
    by_cases hjoin : ds.getD (argminIdx ds) 0 ≤ threshold
    · -- join the nearest cluster
      rw [if_pos hjoin]
      obtain ⟨hne, hcent, hjoins⟩ := hk (argminIdx ds) hbestl
      have hd : ds.getD (argminIdx ds) 0
          = cosineDistance vec (cents.getD (argminIdx ds) []) := by
        rw [hds]
        exact getD_map_lt hbestc _ 0 []
      simp only [SPInv]
      refine ⟨by simp [hlen], ?_⟩
      intro k hkl
      simp only [List.length_set] at hkl
      by_cases hkb : k = argminIdx ds
      · subst hkb
        rw [getD_set_self hbestl, getD_set_self hbestc]
        refine ⟨by simp, ?_, ?_⟩
        · rw [centroidOfMembers_append normalized _ idx hne]
        · intro j hj1 hj2
          simp only [List.length_append, List.length_singleton] at hj2
          by_cases hjold : j < (cls.getD (argminIdx ds) []).length
          · rw [getD_append_left hjold, List.take_append_of_le_length (le_of_lt hjold)]
            exact hjoins j hj1 hjold
          · have hjeq : j = (cls.getD (argminIdx ds) []).length := by omega
            subst hjeq
            rw [getD_append_len, List.take_left, hvec, ← hcent, ← hd]
            exact hjoin
      · rw [getD_set_ne (fun hcon => hkb hcon.symm),
          getD_set_ne (fun hcon => hkb hcon.symm)]
        exact hk k hkl
    · -- start a new cluster
      rw [if_neg hjoin]
      simp only [SPInv]
      refine ⟨by simp [hlen], ?_⟩
      intro k hkl
      simp only [List.length_append, List.length_singleton] at hkl
      by_cases hkold : k < cls.length
      · rw [getD_append_left hkold, getD_append_left (by omega)]
        exact hk k hkold
      · have hkeq : k = cls.length := by omega
        subst hkeq
        rw [getD_append_len]
        have hgc : (cents ++ [vec]).getD cls.length [] = vec := by
          rw [hlen]
          exact getD_append_len vec []
        rw [hgc]
        exact seed_cluster_inv threshold normalized idx vec hvec

/-- The whole pass preserves the invariant from the empty state. -/
theorem spFold_inv (threshold : ℚ) (normalized : List (List ℚ))
    (pairs : List (ℕ × List ℚ))
    (hpairs : ∀ p ∈ pairs, normalized.getD p.1 [] = p.2)
    (st : SPState) (hinv : SPInv threshold normalized st) :
    SPInv threshold normalized
      (pairs.foldl (fun s p => spStep threshold normalized s p.1 p.2) st) := by
  induction pairs generalizing st with
  | nil => exact hinv
  | cons p rest ih =>
      exact ih (fun q hq => hpairs q (List.mem_cons_of_mem _ hq)) _
        (spStep_preserves_inv threshold normalized st p.1 p.2
          (hpairs p (List.mem_cons_self _ _)) hinv)

/-- Zipping the component projections of a pair list recovers the list. -/
theorem zip_map_fst_snd {α β : Type} (l : List (α × β)) :
    (l.map Prod.fst).zip (l.map Prod.snd) = l := by
  induction l with
  | nil => rfl
  | cons p t ih => simp [List.zip, List.zipWith, ih]

/-- C2 (amended): every reported cluster has at least `min_size` members (the
code keeps clusters of size ≥ `max(1, min_size)`), its reported centroid is
the centroid of its final membership, and every non-seed member joined within
the threshold of the centroid its cluster had at that moment; the distance of
a member to the final centroid, however, may exceed the threshold. -/
theorem single_pass_cluster_size_and_join (embeddings : List (List ℚ))
    (threshold : ℚ) (min_size : ℕ) :
    ∀ pc ∈ ((_single_pass_cluster embeddings threshold min_size).1.zip
        (_single_pass_cluster embeddings threshold min_size).2),
      min_size ≤ pc.1.length ∧
      pc.2 = centroidOfMembers (embeddings.map normalizeVec) pc.1 ∧
      JoinOk threshold (embeddings.map normalizeVec) pc.1 := by
  intro pc hpc
  have hrun : SPInv threshold (embeddings.map normalizeVec)
      ((embeddings.map normalizeVec).enum.foldl
        (fun st p => spStep threshold (embeddings.map normalizeVec) st p.1 p.2)
        ⟨[], []⟩) := by
    apply spFold_inv
    · intro p hp
      have hget := List.mem_enum_iff_getElem?.mp hp
      rw [List.getD_eq_getElem?_getD, hget]
      rfl
    · exact ⟨rfl, fun k hk => absurd hk (by simp)⟩
  set final := (embeddings.map normalizeVec).enum.foldl
    (fun st p => spStep threshold (embeddings.map normalizeVec) st p.1 p.2)
    ⟨[], []⟩ with hfinal
  have hzip : ((_single_pass_cluster embeddings threshold min_size).1.zip
      (_single_pass_cluster embeddings threshold min_size).2)
      = (final.clusters.zip final.centroids).filter
          (fun p => max 1 min_size ≤ p.1.length) := by
    simp only [_single_pass_cluster, ← hfinal]
    exact zip_map_fst_snd _
  rw [hzip] at hpc
  have hmem := List.mem_filter.mp hpc
  have hsize : max 1 min_size ≤ pc.1.length := by
    have := hmem.2
    simpa using this
  obtain ⟨i, hi, hieq⟩ := List.mem_iff_getElem.mp hmem.1
  have hil : i < final.clusters.length := by
    have := hi
    simp only [List.length_zip] at this
    omega
  have hic : i < final.centroids.length := by
    have := hi
    simp only [List.length_zip] at this
    omega
  have hpair : (final.clusters.zip final.centroids)[i]
      = (final.clusters[i], final.centroids[i]) := List.getElem_zip
  rw [hpair] at hieq
  obtain ⟨hne, hcent, hjoins⟩ := hrun.2 i hil
  have h1 : pc.1 = final.clusters.getD i [] := by
    rw [← hieq, List.getD_eq_getElem final.clusters [] hil]
  have h2 : pc.2 = final.centroids.getD i [] := by
    rw [← hieq, List.getD_eq_getElem final.centroids [] hic]
  refine ⟨?_, ?_, ?_⟩
  · exact le_trans (le_max_right 1 min_size) hsize
  · rw [h1, h2]
    exact hcent
  · rw [h1]
    exact hjoins

/-- Witness for C2 (amended) on two identical unit embeddings with the default
threshold 0.3 and minimum size 1: the single reported cluster holds both
points, its centroid is the normalized mean, and the join distances are 0. -/
theorem single_pass_cluster_size_and_join_witness :
    ([0, 1], [(1 : ℚ)]) ∈
      ((_single_pass_cluster [[1], [1]] (3/10) 1).1.zip
        (_single_pass_cluster [[1], [1]] (3/10) 1).2) ∧
    (1 ≤ ([0, 1] : List ℕ).length ∧
      [(1 : ℚ)] = centroidOfMembers ([[(1 : ℚ)], [1]].map normalizeVec) [0, 1] ∧
      JoinOk (3/10) ([[(1 : ℚ)], [1]].map normalizeVec) [0, 1]) := by
  have hone : normalizeVec [(1 : ℚ)] = [(1 : ℚ)] := by
    norm_num [normalizeVec, l2Norm, ratSqrt]
  have hmean : meanVec [[(1 : ℚ)], [1]] = [(1 : ℚ)] := by
    simp [meanVec, List.range_succ]
  have hdistz : cosineDistance [(1 : ℚ)] [1] = 0 := by
    norm_num [cosineDistance, dotList]
  have hrun : _single_pass_cluster [[1], [1]] (3/10) 1
      = ([[0, 1]], [[(1 : ℚ)]]) := by
    simp only [_single_pass_cluster, List.map, hone, List.enum, List.enumFrom,
      List.foldl, spStep]
    norm_num [argminIdx, hdistz, hone, hmean, List.filter]
  have hmem : ([0, 1], [(1 : ℚ)]) ∈
      ((_single_pass_cluster [[1], [1]] (3/10) 1).1.zip
        (_single_pass_cluster [[1], [1]] (3/10) 1).2) := by
    rw [hrun]
    simp
  exact ⟨hmem,
    single_pass_cluster_size_and_join [[1], [1]] (3/10) 1 ([0, 1], [(1 : ℚ)]) hmem⟩

/-! ## Silhouette score (app/services/cluster_metrics.py) -/

/-- Per-sample silhouette of member `mi` of the cluster `cluster` sitting at
position `ci`, as computed inside the double loop of
`calculate_silhouette_score`: `a` is the mean distance to the other members
(by index value), `b` the minimum over other nonempty clusters of the mean
distance to their members (`inf` falling back to 0), and
`s = (b-a)/max(a,b)` when `max(a,b) > 0` else 0. -/
def sampleScore (embeddings : List (List ℚ)) (clusters : List (List ℕ))
    (ci : ℕ) (cluster : List ℕ) (mi : ℕ) : ℚ :=
  let mv := embeddings.getD mi []
  let intra := (cluster.filter (fun o => o ≠ mi)).map
    (fun o => cosineDistance mv (embeddings.getD o []))
  let a := if intra = [] then 0 else intra.sum / (intra.length : ℚ)
  let interMeans := (clusters.enum.filter
      (fun p => ¬ (p.1 = ci ∨ p.2 = []))).map
    (fun p => (p.2.map (fun o => cosineDistance mv (embeddings.getD o []))).sum
      / (p.2.length : ℚ))
  let b := match interMeans with
    | [] => 0
    | x :: xs => xs.foldl min x
  if 0 < max a b then (b - a) / max a b else 0

/-- Embedding of `calculate_silhouette_score`: returns 0 for fewer than two
clusters, otherwise the mean of the per-sample silhouettes over all members of
clusters of size ≥ 2 (0 when there is no such member). -/
def calculate_silhouette_score (clusters : List (List ℕ))
    (embeddings : List (List ℚ)) : ℚ :=
  if clusters.length < 2 then 0
  else
    let flat := ((clusters.enum.filter (fun p => ¬ p.2.length < 2)).map
      (fun p => p.2.map (fun mi => sampleScore embeddings clusters p.1 p.2 mi))).flatten
    if flat = [] then 0 else flat.sum / (flat.length : ℚ)

/-- Mean cosine distance from the embedded point `mv` to the members of `ms`
(the spec's "mean cosine distance to that cluster's members"). -/
def meanDistTo (embeddings : List (List ℚ)) (mv : List ℚ) (ms : List ℕ) : ℚ :=
  (ms.map (fun o => cosineDistance mv (embeddings.getD o []))).sum
    / (ms.length : ℚ)

/-- Reference silhouette of one point, written from the spec's words: `a(i)`
is the mean cosine distance to the other members of its own cluster, `b(i)`
the minimum over other (member-bearing) clusters of the mean cosine distance
to that cluster's members (0 when no other cluster has members, matching the
"else 0" convention), and `s = (b-a)/max(a,b)` when `max(a,b) > 0` else 0. -/
def refPointScore (embeddings : List (List ℚ)) (clusters : List (List ℕ))
    (ci : ℕ) (mi : ℕ) : ℚ :=
  let mv := embeddings.getD mi []
  let own := (clusters.getD ci []).filter (fun o => o ≠ mi)
  let a := if own = [] then 0 else meanDistTo embeddings mv own
  let b := ((clusters.enum.filter (fun p => p.1 ≠ ci ∧ p.2 ≠ [])).map
    (fun p => meanDistTo embeddings mv p.2)).min?.getD 0
  if 0 < max a b then (b - a) / max a b else 0

/-- Reference silhouette score from the spec: the mean of `s(i)` over all
points in clusters of size ≥ 2 (0 when there is no such point). -/
def refSilhouette (clusters : List (List ℕ)) (embeddings : List (List ℚ)) : ℚ :=
  let flat := ((clusters.enum.filter (fun p => 2 ≤ p.2.length)).map
    (fun p => p.2.map (fun mi => refPointScore embeddings clusters p.1 mi))).flatten
  if flat = [] then 0 else flat.sum / (flat.length : ℚ)

/-- Counterexample for C5: with a single cluster of two points at distance 1,
the code returns 0 (early `len(clusters) < 2` guard) while the reference
definition yields −1 (a = 1, b = 0 with no other cluster). -/
theorem silhouette_single_cluster_counterexample :
    calculate_silhouette_score [[0, 1]] [[1], [0]] = 0 ∧
    refSilhouette [[0, 1]] [[1], [0]] = -1 := by
  constructor
  · rfl
  · have hd1 : cosineDistance [(1 : ℚ)] [(0 : ℚ)] = 1 := by
      norm_num [cosineDistance, dotList]
    have hd2 : cosineDistance [(0 : ℚ)] [(1 : ℚ)] = 1 := by
      norm_num [cosineDistance, dotList]
    simp only [refSilhouette, List.enum, List.enumFrom, List.filter,
      refPointScore, meanDistTo, List.flatten]
    norm_num [hd1, hd2]
    simp

/-- A point's silhouette matches the reference definition (for the cluster
actually stored at position `ci`). -/
theorem sampleScore_eq_refPointScore (embeddings : List (List ℚ))
    (clusters : List (List ℕ)) (ci : ℕ) (mi : ℕ) :
    sampleScore embeddings clusters ci (clusters.getD ci []) mi
      = refPointScore embeddings clusters ci mi := by
  simp only [sampleScore, refPointScore, meanDistTo]
  have hfil : (clusters.enum.filter (fun p => ¬ (p.1 = ci ∨ p.2 = [])))
      = (clusters.enum.filter (fun p => p.1 ≠ ci ∧ p.2 ≠ [])) := by
    apply List.filter_congr
    intro p _
    simp [not_or]
  rw [hfil]
  have ha : ((clusters.getD ci []).filter (fun o => o ≠ mi)).map
        (fun o => cosineDistance (embeddings.getD mi [])
          (embeddings.getD o []))
      = [] ↔ (clusters.getD ci []).filter (fun o => o ≠ mi) = [] := by
    simp
  have hlen : (((clusters.getD ci []).filter (fun o => o ≠ mi)).map
        (fun o => cosineDistance (embeddings.getD mi [])
          (embeddings.getD o []))).length
      = ((clusters.getD ci []).filter (fun o => o ≠ mi)).length :=
    List.length_map _ _
  have hmin : ∀ l : List ℚ,
      (match l with | [] => (0 : ℚ) | x :: xs => xs.foldl min x)
        = l.min?.getD 0 := by
    intro l
    cases l with
    | nil => rfl
    | cons x xs => rfl
  rw [hmin]
  simp [List.length_map]

/-- Nonnegativity of the inf-fallback minimum of a list of nonnegative
means. -/
theorem matchfold_nonneg (l : List ℚ) (h : ∀ x ∈ l, 0 ≤ x) :
    0 ≤ (match l with | [] => (0 : ℚ) | x :: xs => xs.foldl min x) := by
  have hfold : ∀ (zs : List ℚ) (init : ℚ), 0 ≤ init → (∀ y ∈ zs, 0 ≤ y) →
      0 ≤ zs.foldl min init := by
    intro zs
    induction zs with
    | nil => intro init h0 _; exact h0
    | cons z t ih =>
        intro init h0 hall
        exact ih _ (le_min h0 (hall z (List.mem_cons_self _ _)))
          (fun y hy => hall y (List.mem_cons_of_mem _ hy))
  cases l with
  | nil => exact le_refl 0
  | cons x xs =>
      exact hfold xs x (h x (List.mem_cons_self _ _))
        (fun y hy => h y (List.mem_cons_of_mem _ hy))

/-- The silhouette formula `(b-a)/max(a,b)` (0 on a degenerate max) stays in
`[-1, 1]` for nonnegative `a`, `b`. -/
theorem sform_bounds (a b : ℚ) (ha : 0 ≤ a) (hb : 0 ≤ b) :
    -1 ≤ (if 0 < max a b then (b - a) / max a b else 0) ∧
      (if 0 < max a b then (b - a) / max a b else 0) ≤ 1 := by
  split_ifs with hmax
  · constructor
    · rw [le_div_iff₀ hmax]
      have h1 := le_max_left a b
      linarith
    · rw [div_le_iff₀ hmax]
      have h1 := le_max_right a b
      linarith
  · norm_num

/-- Every per-sample silhouette produced by the code lies in `[-1, 1]`. -/
theorem sampleScore_bounds (embeddings : List (List ℚ))
    (clusters : List (List ℕ)) (ci : ℕ) (cluster : List ℕ) (mi : ℕ) :
    -1 ≤ sampleScore embeddings clusters ci cluster mi ∧
      sampleScore embeddings clusters ci cluster mi ≤ 1 := by
  have hdist : ∀ u v : List ℚ, 0 ≤ cosineDistance u v := by
    intro u v
    simp only [cosineDistance]
    have : max (min (dotList u v) 1) (-1) ≤ 1 :=
      max_le (min_le_right _ _) (by norm_num)
    linarith
  simp only [sampleScore]
  apply sform_bounds
  · split_ifs with hcase
    · exact le_refl 0
    · apply div_nonneg
      · apply List.sum_nonneg
        intro x hx
        obtain ⟨o, _, ho⟩ := List.mem_map.mp hx
        rw [← ho]
        exact hdist _ _
      · positivity
  · apply matchfold_nonneg
    intro x hx
    obtain ⟨p, _, hp⟩ := List.mem_map.mp hx
    rw [← hp]
    apply div_nonneg
    · apply List.sum_nonneg
      intro y hy
      obtain ⟨o, _, ho⟩ := List.mem_map.mp hy
      rw [← ho]
      exact hdist _ _
    · positivity

/-- C5 (amended): whenever at least two clusters are present the code equals
the reference silhouette of the spec; the returned value always lies in
`[-1, 1]`; the function is pure, so identical inputs give identical outputs
(with fewer than two clusters the code returns 0 even where the reference
definition evaluates to a nonzero value). -/
theorem silhouette_score_spec (clusters : List (List ℕ))
    (embeddings : List (List ℚ)) :
    (2 ≤ clusters.length →
      calculate_silhouette_score clusters embeddings
        = refSilhouette clusters embeddings) ∧
    (-1 ≤ calculate_silhouette_score clusters embeddings ∧
      calculate_silhouette_score clusters embeddings ≤ 1) := by
  have hflats : ((clusters.enum.filter (fun p => ¬ p.2.length < 2)).map
        (fun p => p.2.map (fun mi => sampleScore embeddings clusters p.1 p.2 mi)))
      = ((clusters.enum.filter (fun p => 2 ≤ p.2.length)).map
        (fun p => p.2.map (fun mi => refPointScore embeddings clusters p.1 mi))) := by
    have hfil : (clusters.enum.filter (fun p => ¬ p.2.length < 2))
        = (clusters.enum.filter (fun p => 2 ≤ p.2.length)) := by
      apply List.filter_congr
      intro p _
      simp only [decide_eq_decide]
      omega
    rw [hfil]
    apply List.map_congr_left
    intro p hp
    have hmemenum := List.mem_filter.mp hp
    have hgetp : clusters.getD p.1 [] = p.2 := by
      have hget := List.mem_enum_iff_getElem?.mp hmemenum.1
      rw [List.getD_eq_getElem?_getD, hget]
      rfl
    apply List.map_congr_left
    intro mi _
    rw [← hgetp]
    exact sampleScore_eq_refPointScore embeddings clusters p.1 mi
  constructor
  · intro h2
    have hnot : ¬ clusters.length < 2 := by omega
    simp only [calculate_silhouette_score, refSilhouette, hnot, if_false, hflats]
  · simp only [calculate_silhouette_score]
    split_ifs with h1 h2
    · norm_num
    · norm_num
    · set flat := ((clusters.enum.filter (fun p => ¬ p.2.length < 2)).map
        (fun p => p.2.map
          (fun mi => sampleScore embeddings clusters p.1 p.2 mi))).flatten with hflat
      have hbound : ∀ x ∈ flat, -1 ≤ x ∧ x ≤ 1 := by
        intro x hx
        rw [hflat] at hx
        obtain ⟨l, hl, hxl⟩ := List.mem_flatten.mp hx
        obtain ⟨p, _, hpl⟩ := List.mem_map.mp hl
        rw [← hpl] at hxl
        obtain ⟨mi, _, hmi⟩ := List.mem_map.mp hxl
        rw [← hmi]
        exact sampleScore_bounds embeddings clusters p.1 p.2 mi
      have hlenpos : (0 : ℚ) < (flat.length : ℚ) := by
        have : flat ≠ [] := h2
        have hl : 0 < flat.length := List.length_pos.mpr this
        exact_mod_cast hl
      constructor
      · rw [le_div_iff₀ hlenpos]
        have := List.card_nsmul_le_sum flat (-1) (fun x hx => (hbound x hx).1)
        simpa [nsmul_eq_mul, mul_comm] using this
      · rw [div_le_iff₀ hlenpos]
        have := List.sum_le_card_nsmul flat 1 (fun x hx => (hbound x hx).2)
        simpa [nsmul_eq_mul, mul_comm] using this

/-- Witness for C5 (amended) on two well-separated 1-dimensional clusters:
the silhouette evaluates to 1 on both the code and the reference side. -/
theorem silhouette_score_spec_witness :
    (2 ≤ ([[0, 1], [2, 3]] : List (List ℕ)).length ∧
      calculate_silhouette_score [[0, 1], [2, 3]] [[1], [1], [-1], [-1]]
        = refSilhouette [[0, 1], [2, 3]] [[1], [1], [-1], [-1]]) ∧
    (-1 ≤ calculate_silhouette_score [[0, 1], [2, 3]] [[1], [1], [-1], [-1]] ∧
      calculate_silhouette_score [[0, 1], [2, 3]] [[1], [1], [-1], [-1]] ≤ 1) :=
  ⟨⟨by norm_num,
    (silhouette_score_spec [[0, 1], [2, 3]] [[1], [1], [-1], [-1]]).1
      (by norm_num)⟩,
    (silhouette_score_spec [[0, 1], [2, 3]] [[1], [1], [-1], [-1]]).2⟩

/-! ## Cross-source correlation and the /correlation/global endpoint
(app/services/cross_correlation.py and app/api/v1/endpoints/correlation.py) -/

/-- A value stored in a response `params` dictionary. -/
inductive PVal where
  | pq (q : ℚ)
  | pn (n : ℕ)
  | ps (s : String)
  deriving Repr, DecidableEq

/-- Python `dict.setdefault`: insert the pair only when the key is absent. -/
def setdefault (params : List (String × PVal)) (key : String) (v : PVal) :
    List (String × PVal) :=
  if (params.lookup key).isSome then params else params ++ [(key, v)]

/-- One row of a `logs_<os>` (or `proto_<os>`) collection as read by the
correlation service: id, document, embedding and the metadata fields it
consumes (`source`, `raw`, optional `os`). -/
structure LogRow where
  id : String
  document : String
  embedding : List ℚ
  source : String
  os : Option String
  raw : String
  deriving Repr, DecidableEq, Inhabited

/-- A sampled log inside a global cluster of the correlation response. -/
structure SampleLog where
  id : String
  document : String
  os : String
  source : String
  raw : String
  deriving Repr, DecidableEq

/-- One cluster of a correlation response. -/
structure GCluster where
  id : String
  size : ℕ
  centroid : List ℚ
  medoid_document : String
  source_breakdown : List (String × ℕ)
  os_breakdown : List (String × ℕ)
  sample_logs : List SampleLog
  deriving Repr, DecidableEq

/-- A correlation response: the `params` dictionary and the clusters. -/
structure GlobalResult where
  params : List (String × PVal)
  clusters : List GCluster
  deriving Repr, DecidableEq

/-- Keys of a list in first-appearance order (Python dict insertion order). -/
def firstOccurrences : List String → List String
  | [] => []
  | s :: rest => s :: firstOccurrences (rest.filter (fun x => x ≠ s))
termination_by l => l.length
decreasing_by
  simp only [List.length_cons]
  exact Nat.lt_succ_of_le (List.length_filter_le _ _)

/-- Python-dict-style counting: keys in first-appearance order with their
multiplicities. -/
def countBy (keys : List String) : List (String × ℕ) :=
  (firstOccurrences keys).map (fun k => (k, (keys.filter (fun x => x = k)).length))

/-- Embedding of the per-source cap of `compute_global_clusters`: group rows
by `source` in first-appearance order and keep at most `limit` rows each. -/
def capPerSource (limit : ℕ) (rows : List LogRow) : List LogRow :=
  (firstOccurrences (rows.map (fun r => r.source))).flatMap
    (fun src => (rows.filter (fun r => r.source = src)).take limit)

/-- Per-OS collection walk of `compute_global_clusters`: cap per source and
annotate the metadata `os` with the collection's OS when missing. -/
def collectLogs (limit : ℕ) (data : List (String × List LogRow)) : List LogRow :=
  (data.map (fun p => (capPerSource limit p.2).map
    (fun r => { r with os := some (r.os.getD p.1) }))).flatten

/-- Embedding of `_compute_medoid_index`: the member index whose vector is
closest to the centroid (first minimum; the `1e9` sentinel of the code is
never reached since cosine distances are ≤ 2). -/
def medoidIndex (indices : List ℕ) (vectors : List (List ℚ))
    (centroid : List ℚ) : ℕ :=
  indices.getD
    (argminIdx (indices.map (fun i => cosineDistance (vectors.getD i []) centroid)))
    0

/-- The effective OS string of a row (`str(meta.get("os") or "")`). -/
def rowOs (r : LogRow) : String := r.os.getD ""

/-- Embedding of `compute_global_clusters`: collect capped rows from every OS
logs collection (`data` is the content of those collections), then cluster
with the single pass and build the response; `threshold`/`min_size` default to
`CLUSTER_DISTANCE_THRESHOLD = 0.3` and `CLUSTER_MIN_SIZE = 5`. -/
def compute_global_clusters (limit_per_source : ℕ) (threshold : Option ℚ)
    (min_size : Option ℕ) (include_logs_per_cluster : ℕ)
    (data : List (String × List LogRow)) : GlobalResult :=
  let thr := threshold.getD (3/10)
  let ms := min_size.getD 5
  let rows := collectLogs limit_per_source data
  let params : List (String × PVal) :=
    [("threshold", .pq thr), ("min_size", .pn ms),
     ("limit_per_source", .pn limit_per_source),
     ("include_logs_per_cluster", .pn include_logs_per_cluster)]
  if rows = [] then { params := params, clusters := [] }
  else
    let embs := rows.map (fun r => r.embedding)
    let res := _single_pass_cluster embs thr ms
    let normalized := embs.map normalizeVec
    let out := (res.1.zip res.2).enum.map
      (fun (q : ℕ × (List ℕ × List ℚ)) =>
        let members := q.2.1
        let medoid := medoidIndex members normalized q.2.2
        ({ id := "gcluster_" ++ toString q.1
           size := members.length
           centroid := q.2.2
           medoid_document := (rows.map (fun r => r.document)).getD medoid ""
           source_breakdown := countBy (members.map
             (fun gi => (rows.getD gi default).source))
           os_breakdown := countBy (members.map
             (fun gi => rowOs (rows.getD gi default)))
           sample_logs := (members.take include_logs_per_cluster).map (fun gi =>
             let r := rows.getD gi default
             { id := r.id, document := r.document, os := rowOs r
               source := r.source, raw := r.raw }) } : GCluster))
    { params := params, clusters := out }

/-- Embedding of `compute_global_prototype_clusters_hdbscan`.  The prototype
collections' contents are `protoData`; when every collection is empty the
function returns no clusters with `basis = "prototypes"` parameters; the
density clustering itself is performed by the external `hdbscan` library,
whose output (and the response built from it) is abstracted by
`libClusters`. -/
def compute_global_prototype_clusters_hdbscan (min_cluster_size : ℕ)
    (min_samples : Option ℕ) (include_logs_per_cluster : ℕ)
    (protoData : List (String × List LogRow))
    (libClusters : List GCluster) : GlobalResult :=
  let flattened := (protoData.map (fun p => p.2)).flatten
  if flattened = [] then
    { params :=
        [("algorithm", .ps "hdbscan"), ("basis", .ps "prototypes"),
         ("min_cluster_size", .pn min_cluster_size),
         ("min_samples", .pn (min_samples.getD min_cluster_size)),
         ("include_logs_per_cluster", .pn include_logs_per_cluster)]
      clusters := [] }
  else
    { params :=
        [("algorithm", .ps "hdbscan"), ("basis", .ps "prototypes"),
         ("min_cluster_size", .pn (max 2 min_cluster_size)),
         ("min_samples", .pn (max 1 (min_samples.getD min_cluster_size))),
         ("include_logs_per_cluster", .pn include_logs_per_cluster)]
      clusters := libClusters }

/-- The `setdefault` stamping applied by the endpoint to the fallback
response's params: `basis = "logs"`, then `algorithm = "single_pass"`. -/
def fallbackParams (ps : List (String × PVal)) : List (String × PVal) :=
  setdefault (setdefault ps "basis" (.ps "logs")) "algorithm" (.ps "single_pass")

/-- Embedding of the `GET /correlation/global` handler: on the
`basis=prototypes`, `algorithm=hdbscan` path it first tries HDBSCAN over
prototypes and, when no cluster is found, falls back to single-pass logs
clustering with a demo-friendly minimum size `max(2, CLUSTER_MIN_SIZE // 2)`,
stamping `basis`/`algorithm` into the fallback's params via `setdefault`. -/
def get_global_correlation (limit_per_source : ℕ) (threshold : Option ℚ)
    (min_size : Option ℕ) (include_logs_per_cluster : ℕ) (algorithm : String)
    (basis : String) (min_cluster_size : ℕ) (min_samples : Option ℕ)
    (logsData protoData : List (String × List LogRow))
    (libClusters : List GCluster) : GlobalResult :=
  if basis = "prototypes" ∧ algorithm = "hdbscan" then
    let protoResult := compute_global_prototype_clusters_hdbscan
      min_cluster_size min_samples include_logs_per_cluster protoData libClusters
    if protoResult.clusters ≠ [] then protoResult
    else
      let fallbackThreshold := threshold.getD (3/10)
      let fallbackMinSize := min_size.getD (max 2 (5 / 2))
      let logsResult := compute_global_clusters limit_per_source
        (some fallbackThreshold) (some fallbackMinSize)
        include_logs_per_cluster logsData
      { logsResult with params := fallbackParams logsResult.params }
  else
    compute_global_clusters limit_per_source threshold min_size
      include_logs_per_cluster logsData

/-- C7: with `basis=prototypes`, `algorithm=hdbscan` and empty `proto_*`
collections the endpoint does not fail: it returns the single-pass-over-logs
result, whose `params.basis` is `"logs"` and `params.algorithm` is
`"single_pass"`. -/
theorem correlation_hdbscan_empty_fallback (limit_per_source : ℕ)
    (threshold : Option ℚ) (min_size : Option ℕ)
    (include_logs_per_cluster : ℕ) (min_cluster_size : ℕ)
    (min_samples : Option ℕ) (logsData protoData : List (String × List LogRow))
    (libClusters : List GCluster)
    (hempty : ∀ p ∈ protoData, p.2 = []) :
    let r := get_global_correlation limit_per_source threshold min_size
      include_logs_per_cluster "hdbscan" "prototypes" min_cluster_size
      min_samples logsData protoData libClusters
    r.params.lookup "basis" = some (.ps "logs") ∧
    r.params.lookup "algorithm" = some (.ps "single_pass") ∧
    r.clusters = (compute_global_clusters limit_per_source
      (some (threshold.getD (3/10))) (some (min_size.getD 2))
      include_logs_per_cluster logsData).clusters := by
  intro r
  have hflat : ((protoData.map (fun p => p.2)).flatten : List LogRow) = [] := by
    rw [List.flatten_eq_nil_iff]
    intro l hl
    obtain ⟨p, hp, hpl⟩ := List.mem_map.mp hl
    rw [← hpl]
    exact hempty p hp
  have hproto : compute_global_prototype_clusters_hdbscan min_cluster_size
      min_samples include_logs_per_cluster protoData libClusters
      = { params :=
            [("algorithm", .ps "hdbscan"), ("basis", .ps "prototypes"),
             ("min_cluster_size", .pn min_cluster_size),
             ("min_samples", .pn (min_samples.getD min_cluster_size)),
             ("include_logs_per_cluster", .pn include_logs_per_cluster)]
          clusters := [] } := by
    simp only [compute_global_prototype_clusters_hdbscan, hflat,
      eq_self_iff_true, if_true]
  have hrp : r.params = fallbackParams
      (compute_global_clusters limit_per_source
        (some (threshold.getD (3/10))) (some (min_size.getD 2))
        include_logs_per_cluster logsData).params := by
    show (get_global_correlation limit_per_source threshold min_size
      include_logs_per_cluster "hdbscan" "prototypes" min_cluster_size
      min_samples logsData protoData libClusters).params = _
    simp only [get_global_correlation, hproto]
    norm_num
  have hrc : r.clusters = (compute_global_clusters limit_per_source
      (some (threshold.getD (3/10))) (some (min_size.getD 2))
      include_logs_per_cluster logsData).clusters := by
    show (get_global_correlation limit_per_source threshold min_size
      include_logs_per_cluster "hdbscan" "prototypes" min_cluster_size
      min_samples logsData protoData libClusters).clusters = _
    simp only [get_global_correlation, hproto]
    norm_num
  have hparams : (compute_global_clusters limit_per_source
      (some (threshold.getD (3/10))) (some (min_size.getD 2))
      include_logs_per_cluster logsData).params
      = [("threshold", .pq (threshold.getD (3/10))),
         ("min_size", .pn (min_size.getD 2)),
         ("limit_per_source", .pn limit_per_source),
         ("include_logs_per_cluster", .pn include_logs_per_cluster)] := by
    simp only [compute_global_clusters, Option.getD_some]
    split_ifs <;> rfl
  refine ⟨?_, ?_, hrc⟩
  · rw [hrp]
    simp [hparams, fallbackParams, setdefault, List.lookup]
  · rw [hrp]
    simp [hparams, fallbackParams, setdefault, List.lookup]

/-- Witness for C7 with empty proto and logs collections: the fallback result
carries `basis = "logs"`, `algorithm = "single_pass"` and no clusters. -/
theorem correlation_hdbscan_empty_fallback_witness :
    (get_global_correlation 200 none none 20 "hdbscan" "prototypes" 5 none
        [("linux", [])] [("linux", [])] []).params.lookup "basis"
      = some (.ps "logs") ∧
    (get_global_correlation 200 none none 20 "hdbscan" "prototypes" 5 none
        [("linux", [])] [("linux", [])] []).params.lookup "algorithm"
      = some (.ps "single_pass") ∧
    (get_global_correlation 200 none none 20 "hdbscan" "prototypes" 5 none
        [("linux", [])] [("linux", [])] []).clusters = [] := by
  have h := correlation_hdbscan_empty_fallback 200 none none 20 5 none
    [("linux", [])] [("linux", [])] []
    (by intro p hp; simp at hp; rw [hp])
  refine ⟨h.1, h.2.1, ?_⟩
  rw [h.2.2]
  simp [compute_global_clusters, collectLogs, capPerSource, firstOccurrences]

/-! ## Templating (app/parsers/templating.py)

`template_content` applies eight `re.sub` masking passes and a whitespace
collapse.  Each regex is embedded as a deterministic matcher (the patterns
leave no real backtracking freedom, which was checked against CPython `re`):
`matchLen prevOk s` returns the number of characters the pattern consumes at
the head of `s`, where `prevOk` says whether the character before `s` was
absent or a non-word character (all the patterns consult the left context
only through `\b`/`(?<!\w)`, i.e. through exactly this bit).  Characters are
modelled over ASCII, which is what log lines contain. -/

/-- Python `\w` on ASCII: letters, digits and underscore. -/
def isWordCh (c : Char) : Bool := c.isAlphanum || c = '_'

/-- Python `\d` on ASCII. -/
def isDigitCh (c : Char) : Bool := c.isDigit

/-- The `[0-9A-Fa-f]` class. -/
def isHexCh (c : Char) : Bool :=
  c.isDigit || (('a' ≤ c && c ≤ 'f') || ('A' ≤ c && c ≤ 'F'))

/-- Python `\s` on ASCII. -/
def isWsCh (c : Char) : Bool :=
  c = ' ' || c = '\t' || c = '\n' || c = '\r' || c = '\x0b' || c = '\x0c'

/-- Length of the maximal run of characters satisfying `p` at the head. -/
def runLen (p : Char → Bool) : List Char → ℕ
  | [] => 0
  | c :: rest => if p c then runLen p rest + 1 else 0

/-- The `\b`-at-the-right test: end of input or a non-word character. -/
def headNonword (s : List Char) : Bool :=
  match s with
  | [] => true
  | c :: _ => !(isWordCh c)

/-- `(?:[0-9A-Fa-f]{2}:){n}`: exactly `n` two-hex-digit-and-colon groups (an
exact-count group can only consume a full hex run, so the test is that the
run has length exactly 2 and a colon follows). -/
def macGroups : ℕ → List Char → Option (ℕ × List Char)
  | 0, s => some (0, s)
  | n + 1, s =>
      if runLen isHexCh s = 2 ∧ (s.drop 2).head? = some ':' then
        (macGroups n (s.drop 3)).map (fun p => (p.1 + 3, p.2))
      else none

/-- `\b(?:[0-9A-Fa-f]{2}:){5}[0-9A-Fa-f]{2}\b` (MAC_ADDRESS). -/
def macLen (prevOk : Bool) (s : List Char) : Option ℕ :=
  if !prevOk then none
  else
    match macGroups 5 s with
    | none => none
    | some (n, rest) =>
        if runLen isHexCh rest = 2 ∧ headNonword (rest.drop 2) then some (n + 2)
        else none

/-- `(?:\d{1,3}\.){n}`: dotted decimal groups (a group can only consume its
whole digit run, so the regex is deterministic here). -/
def ipv4Groups : ℕ → List Char → Option (ℕ × List Char)
  | 0, s => some (0, s)
  | g + 1, s =>
      let k := runLen isDigitCh s
      if 1 ≤ k ∧ k ≤ 3 ∧ (s.drop k).head? = some '.' then
        (ipv4Groups g (s.drop (k + 1))).map (fun p => (p.1 + k + 1, p.2))
      else none

/-- `\b(?:\d{1,3}\.){3}\d{1,3}\b` (IPV4_ADDRESS). -/
def ipv4Len (prevOk : Bool) (s : List Char) : Option ℕ :=
  if !prevOk then none
  else
    match ipv4Groups 3 s with
    | none => none
    | some (n, rest) =>
        let k := runLen isDigitCh rest
        if 1 ≤ k ∧ k ≤ 3 ∧ headNonword (rest.drop k) then some (n + k)
        else none

/-- `runLen` never exceeds the length of the list. -/
theorem runLen_le_length (p : Char → Bool) (s : List Char) :
    runLen p s ≤ s.length := by
  induction s with
  | nil => simp [runLen]
  | cons c rest ih =>
      rw [runLen]
      split_ifs
      · simpa using ih
      · simp

/-- Greedy `(?:[A-Fa-f0-9]{1,4}:){g}` prefix: number of groups and total
consumed length. -/
def ipv6Groups (s : List Char) : ℕ × ℕ :=
  let k := runLen isHexCh s
  if h : 1 ≤ k ∧ k ≤ 4 ∧ (s.drop k).head? = some ':' then
    let t := ipv6Groups (s.drop (k + 1))
    (t.1 + 1, t.2 + k + 1)
  else (0, 0)
termination_by s.length
decreasing_by
  have hle : runLen isHexCh s ≤ s.length := runLen_le_length isHexCh s
  simp only [List.length_drop]
  omega

/-- `\b(?:[A-Fa-f0-9]{1,4}:){2,}[A-Fa-f0-9]{1,4}\b` (IPV6_ADDRESS).  The
greedy group prefix may give back its final colon when no final hex component
fits (checked against CPython `re`). -/
def ipv6Len (prevOk : Bool) (s : List Char) : Option ℕ :=
  if !prevOk then none
  else
    if 2 ≤ (ipv6Groups s).1 ∧
        1 ≤ runLen isHexCh (s.drop (ipv6Groups s).2) ∧
        runLen isHexCh (s.drop (ipv6Groups s).2) ≤ 4 ∧
        headNonword ((s.drop (ipv6Groups s).2).drop
          (runLen isHexCh (s.drop (ipv6Groups s).2))) then
      some ((ipv6Groups s).2 + runLen isHexCh (s.drop (ipv6Groups s).2))
    else if 3 ≤ (ipv6Groups s).1 then some ((ipv6Groups s).2 - 1)
    else none

/-- `(?:[0-9a-fA-F]{4}-){n}` tail groups of the UUID pattern: each consumes a
full four-hex run followed by the next dash. -/
def uuidGroups : ℕ → List Char → Option (ℕ × List Char)
  | 0, s => some (0, s)
  | g + 1, s =>
      let k := runLen isHexCh s
      if k = 4 ∧ (s.drop 4).head? = some '-' then
        (uuidGroups g (s.drop 5)).map (fun p => (p.1 + 5, p.2))
      else none

/-- `\b[0-9a-fA-F]{8}(?:-[0-9a-fA-F]{4}){3}-[0-9a-fA-F]{12}\b`
(UUID_PATTERN): the exact-count groups only match full hex runs. -/
def uuidLen (prevOk : Bool) (s : List Char) : Option ℕ :=
  if !prevOk then none
  else
    if runLen isHexCh s = 8 ∧ (s.drop 8).head? = some '-' then
      match uuidGroups 3 (s.drop 9) with
      | none => none
      | some (n, rest) =>
          if runLen isHexCh rest = 12 ∧ headNonword (rest.drop 12) then
            some (9 + n + 12)
          else none
    else none

/-- `\b0x[0-9A-Fa-f]+\b` (HEX_LITERAL). -/
def hexLen (prevOk : Bool) (s : List Char) : Option ℕ :=
  if !prevOk then none
  else
    if s.head? = some '0' ∧ (s.drop 1).head? = some 'x' then
      let k := runLen isHexCh (s.drop 2)
      if 1 ≤ k ∧ headNonword (s.drop (2 + k)) then some (2 + k) else none
    else none

/-- Cumulative lengths of up to `g` consecutive `\.\d+` groups. -/
def verGroups : ℕ → List Char → List ℕ
  | 0, _ => []
  | g + 1, s =>
      if s.head? = some '.' then
        let k := runLen isDigitCh (s.drop 1)
        if 1 ≤ k then
          (1 + k) :: ((verGroups g (s.drop (1 + k))).map (fun n => n + 1 + k))
        else []
      else []

/-- `\b\d+(?:\.\d+){1,3}\b` (VERSION_PATTERN): the greedy group list may give
back its last group when the trailing `\b` fails (checked against CPython
`re`; after a non-final group the next character is a dot, so `\b` holds). -/
def versionLen (prevOk : Bool) (s : List Char) : Option ℕ :=
  if !prevOk then none
  else
    if runLen isDigitCh s = 0 then none
    else
      match verGroups 3 (s.drop (runLen isDigitCh s)) with
      | [] => none
      | e :: es =>
          if headNonword (s.drop
              (runLen isDigitCh s + (e :: es).getLastD 0)) then
            some (runLen isDigitCh s + (e :: es).getLastD 0)
          else if 2 ≤ (e :: es).length then
            some (runLen isDigitCh s +
              ((e :: es).take ((e :: es).length - 1)).getLastD 0)
          else none

/-- `#\d+` (HASH_NUMBER): no boundary assertions at all. -/
def hashLen (_prevOk : Bool) (s : List Char) : Option ℕ :=
  if s.head? = some '#' then
    let k := runLen isDigitCh (s.drop 1)
    if 1 ≤ k then some (1 + k) else none
  else none

/-- Length of the optional `[-+]` sign of the NUMBER pattern. -/
def numSign (s : List Char) : ℕ :=
  if s.head? = some '+' ∨ s.head? = some '-' then 1 else 0

/-- What follows the sign and the integer digit run of the NUMBER pattern. -/
def numAfter (s : List Char) : List Char :=
  s.drop (numSign s + runLen isDigitCh (s.drop (numSign s)))

/-- The optional full `\.\d+` fractional part (with its trailing lookahead)
of the NUMBER pattern. -/
def numFrac (s : List Char) : Option ℕ :=
  if (numAfter s).head? = some '.' then
    if 1 ≤ runLen isDigitCh ((numAfter s).drop 1) ∧
        headNonword ((numAfter s).drop
          (1 + runLen isDigitCh ((numAfter s).drop 1))) then
      some (1 + runLen isDigitCh ((numAfter s).drop 1))
    else none
  else none

/-- `(?<!\w)[-+]?\d+(?:\.\d+)?(?!\w)` (NUMBER): an optional sign, the whole
integer digit run, an optional full fractional part; when the lookahead after
the fraction fails the fraction is dropped (the dot is a non-word character,
so the shorter match survives; checked against CPython `re`). -/
def numberLen (prevOk : Bool) (s : List Char) : Option ℕ :=
  if !prevOk then none
  else
    if runLen isDigitCh (s.drop (numSign s)) = 0 then none
    else
      match numFrac s with
      | some fl =>
          some (numSign s + runLen isDigitCh (s.drop (numSign s)) + fl)
      | none =>
          if headNonword (numAfter s) then
            some (numSign s + runLen isDigitCh (s.drop (numSign s)))
          else none

/-- A masking pass: the deterministic matcher of one regex together with its
replacement text. -/
structure Matcher where
  matchLen : Bool → List Char → Option ℕ
  repl : List Char

/-- Scanning loop of `re.sub`: at every position try the pattern; on a match
emit the replacement and resume after the matched region (the character
before the next position is the last original character of the match); else
copy one character. -/
def substGo (m : Matcher) (prevOk : Bool) (s : List Char) : List Char :=
  match s with
  | [] => []
  | c :: rest =>
      match m.matchLen prevOk (c :: rest) with
      | some n =>
          m.repl ++ substGo m (!(isWordCh ((c :: rest).getD (n - 1) c)))
            ((c :: rest).drop (max n 1))
      | none => c :: substGo m (!(isWordCh c)) rest
termination_by s.length
decreasing_by
  · simp only [List.length_drop, List.length_cons]
    omega
  · simp

/-- One full `re.sub(pattern, repl, s)` pass (at the start of the string the
`\b`/lookbehind context is "no previous word character"). -/
def substPass (m : Matcher) (s : List Char) : List Char := substGo m true s

/-- Dropping a prefix cannot lengthen a list. -/
theorem dropWhile_length_le {α : Type} (p : α → Bool) (l : List α) :
    (l.dropWhile p).length ≤ l.length := by
  induction l with
  | nil => simp
  | cons c t ih =>
      rw [List.dropWhile_cons]
      split_ifs
      · exact le_trans ih (by simp)
      · simp

/-- `re.sub(r"\s+", " ", t)`: collapse every whitespace run to one space. -/
def collapseWs : List Char → List Char
  | [] => []
  | c :: rest =>
      if isWsCh c then ' ' :: collapseWs (rest.dropWhile isWsCh)
      else c :: collapseWs rest
termination_by s => s.length
decreasing_by
  · simp only [List.length_cons]
    exact Nat.lt_succ_of_le (dropWhile_length_le _ _)
  · simp

/-- `str.strip()`: drop leading and trailing whitespace. -/
def stripWs (s : List Char) : List Char :=
  ((s.dropWhile isWsCh).reverse.dropWhile isWsCh).reverse

/-- The eight masking passes of `template_content`, in source order. -/
def maskMatchers : List Matcher :=
  [⟨macLen, ['<', '*', '>']⟩, ⟨ipv4Len, ['<', '*', '>']⟩,
   ⟨ipv6Len, ['<', '*', '>']⟩, ⟨uuidLen, ['<', '*', '>']⟩,
   ⟨hexLen, ['<', '*', '>']⟩, ⟨versionLen, ['<', '*', '>']⟩,
   ⟨hashLen, ['#', '<', '*', '>']⟩, ⟨numberLen, ['<', '*', '>']⟩]

/-- The eight masking substitutions applied in order. -/
def maskAll (s : List Char) : List Char :=
  maskMatchers.foldl (fun acc m => substPass m acc) s

/-- Embedding of `template_content`: mask, collapse whitespace, strip. -/
def template_content (s : List Char) : List Char :=
  stripWs (collapseWs (maskAll s))

/-! ### Locality of the masking passes at whitespace

Every masking regex only ever consumes word characters, dots, colons,
dashes, plus signs and hashes, and consults the context through `\\b` /
lookarounds only; so a whitespace character is never part of a match and
cuts the string into independently masked pieces.  The following lemmas
make that precise. -/

/-- A whitespace character is not a word character. -/
theorem ws_not_word {w : Char} (hw : isWsCh w = true) : isWordCh w = false := by
  simp only [isWsCh, Bool.or_eq_true, decide_eq_true_eq] at hw
  rcases hw with ((((rfl | rfl) | rfl) | rfl) | rfl) | rfl <;> decide

/-- A whitespace character is not a hex digit. -/
theorem ws_not_hex {w : Char} (hw : isWsCh w = true) : isHexCh w = false := by
  simp only [isWsCh, Bool.or_eq_true, decide_eq_true_eq] at hw
  rcases hw with ((((rfl | rfl) | rfl) | rfl) | rfl) | rfl <;> decide

/-- A whitespace character is not a decimal digit. -/
theorem ws_not_digit {w : Char} (hw : isWsCh w = true) : isDigitCh w = false := by
  simp only [isWsCh, Bool.or_eq_true, decide_eq_true_eq] at hw
  rcases hw with ((((rfl | rfl) | rfl) | rfl) | rfl) | rfl <;> decide

/-- A whitespace character differs from every non-whitespace character. -/
theorem ws_ne {w c : Char} (hw : isWsCh w = true) (hc : isWsCh c = false) :
    w ≠ c := by
  intro h
  subst h
  rw [hw] at hc
  exact Bool.noConfusion hc

/-- A run of `p`-characters stops at a character violating `p`. -/
theorem runLen_append {p : Char → Bool} {w : Char} (hpw : p w = false)
    (u v : List Char) : runLen p (u ++ w :: v) = runLen p u := by
  induction u with
  | nil => simp [runLen, hpw]
  | cons c u2 ih => simp [runLen, ih]

/-- The head test behind a whitespace boundary only sees the left piece. -/
theorem head_append_ws {w c : Char} (hne : w ≠ c) (u v : List Char) :
    ((u ++ w :: v).head? = some c) ↔ (u.head? = some c) := by
  cases u with
  | nil => simp [hne]
  | cons a u2 => simp

/-- The `\\b`-at-the-right test behind a whitespace boundary. -/
theorem headNonword_append {w : Char} (hw : isWsCh w = true) (u v : List Char) :
    headNonword (u ++ w :: v) = headNonword u := by
  cases u with
  | nil => simp [headNonword, ws_not_word hw]
  | cons a u2 => simp [headNonword]

/-- A successful head test after `drop k` bounds `k` by the length. -/
theorem drop_head_lt {l : List Char} {k : ℕ} {c : Char}
    (h : (l.drop k).head? = some c) : k < l.length := by
  by_contra hk
  rw [List.drop_eq_nil_of_le (le_of_not_lt hk)] at h
  exact Option.noConfusion h

/-- `macGroups` consumes a prefix: the returned rest is the drop. -/
theorem macGroups_acc : ∀ (n : ℕ) (s : List Char) (p : ℕ × List Char),
    macGroups n s = some p → p.1 ≤ s.length ∧ p.2 = s.drop p.1 := by
  intro n
  induction n with
  | zero =>
      intro s p h
      simp only [macGroups, Option.some.injEq] at h
      rw [← h]
      simp
  | succ n ih =>
      intro s p h
      rw [macGroups] at h
      split_ifs at h with hc
      · cases hq : macGroups n (s.drop 3) with
        | none => rw [hq] at h; exact Option.noConfusion h
        | some q =>
            rw [hq] at h
            rw [Option.map_some'] at h
            rw [Option.some.injEq] at h
            have hacc := ih _ _ hq
            have h2 : 2 < s.length := drop_head_lt hc.2
            subst h
            simp only [List.length_drop] at hacc
            have ha1 := hacc.1
            refine ⟨?_, ?_⟩
            · show q.1 + 3 ≤ s.length
              omega
            · show q.2 = List.drop (q.1 + 3) s
              rw [hacc.2, List.drop_drop, Nat.add_comm]

/-- `ipv4Groups` consumes a prefix: the returned rest is the drop. -/
theorem ipv4Groups_acc : ∀ (g : ℕ) (s : List Char) (p : ℕ × List Char),
    ipv4Groups g s = some p → p.1 ≤ s.length ∧ p.2 = s.drop p.1 := by
  intro g
  induction g with
  | zero =>
      intro s p h
      simp only [ipv4Groups, Option.some.injEq] at h
      rw [← h]
      simp
  | succ g ih =>
      intro s p h
      rw [ipv4Groups] at h
      split_ifs at h with hc
      · cases hq : ipv4Groups g (s.drop (runLen isDigitCh s + 1)) with
        | none => rw [hq] at h; exact Option.noConfusion h
        | some q =>
            rw [hq] at h
            rw [Option.map_some'] at h
            rw [Option.some.injEq] at h
            have hacc := ih _ _ hq
            have hk : runLen isDigitCh s < s.length := drop_head_lt hc.2.2
            subst h
            simp only [List.length_drop] at hacc
            have ha1 := hacc.1
            refine ⟨?_, ?_⟩
            · show q.1 + runLen isDigitCh s + 1 ≤ s.length
              omega
            · show q.2 = List.drop (q.1 + runLen isDigitCh s + 1) s
              rw [hacc.2, List.drop_drop]
              congr 1
              omega

/-- `uuidGroups` consumes a prefix: the returned rest is the drop. -/
theorem uuidGroups_acc : ∀ (g : ℕ) (s : List Char) (p : ℕ × List Char),
    uuidGroups g s = some p → p.1 ≤ s.length ∧ p.2 = s.drop p.1 := by
  intro g
  induction g with
  | zero =>
      intro s p h
      simp only [uuidGroups, Option.some.injEq] at h
      rw [← h]
      simp
  | succ g ih =>
      intro s p h
      rw [uuidGroups] at h
      split_ifs at h with hc
      · cases hq : uuidGroups g (s.drop 5) with
        | none => rw [hq] at h; exact Option.noConfusion h
        | some q =>
            rw [hq] at h
            rw [Option.map_some'] at h
            rw [Option.some.injEq] at h
            have hacc := ih _ _ hq
            have h4 : 4 < s.length := drop_head_lt hc.2
            subst h
            simp only [List.length_drop] at hacc
            have ha1 := hacc.1
            refine ⟨?_, ?_⟩
            · show q.1 + 5 ≤ s.length
              omega
            · show q.2 = List.drop (q.1 + 5) s
              rw [hacc.2, List.drop_drop, Nat.add_comm]

/-- Every cumulative length reported by `verGroups` is positive and within
the string. -/
theorem verGroups_acc : ∀ (g : ℕ) (s : List Char) (e : ℕ),
    e ∈ verGroups g s → 1 ≤ e ∧ e ≤ s.length := by
  intro g
  induction g with
  | zero => intro s e h; simp [verGroups] at h
  | succ g ih =>
      intro s e h
      by_cases hdot : s.head? = some '.'
      · by_cases hk : 1 ≤ runLen isDigitCh (s.drop 1)
        · rw [verGroups, if_pos hdot, if_pos hk] at h
          have hlen : 0 < s.length := by
            cases s with
            | nil => simp at hdot
            | cons a t => simp
          have hkle : runLen isDigitCh (s.drop 1) ≤ s.length - 1 := by
            have := runLen_le_length isDigitCh (s.drop 1)
            simpa using this
          simp only [List.mem_cons, List.mem_map] at h
          rcases h with rfl | ⟨n, hn, rfl⟩
          · omega
          · have := ih _ _ hn
            simp only [List.length_drop] at this
            omega
        · rw [verGroups, if_pos hdot, if_neg hk] at h
          simp at h
      · rw [verGroups, if_neg hdot] at h
        simp at h

/-- The greedy IPv6 group prefix consumes at most the whole string, and at
least one character per group. -/
theorem ipv6Groups_acc_aux : ∀ (n : ℕ) (s : List Char), s.length ≤ n →
    (ipv6Groups s).2 ≤ s.length ∧ (ipv6Groups s).1 ≤ (ipv6Groups s).2 := by
  intro n
  induction n with
  | zero =>
      intro s hs
      have : s = [] := List.eq_nil_of_length_eq_zero (Nat.le_zero.mp hs)
      subst this
      rw [ipv6Groups]
      simp [runLen]
  | succ n ih =>
      intro s hs
      rw [ipv6Groups]
      split_ifs with hc
      · obtain ⟨h1, h4, hcol⟩ := hc
        have hklt : runLen isHexCh s < s.length := drop_head_lt hcol
        have hrec := ih (s.drop (runLen isHexCh s + 1))
          (by simp only [List.length_drop]; omega)
        simp only [List.length_drop] at hrec
        constructor
        · simp only []
          omega
        · simp only []
          omega
      · simp

/-- Accounting for `ipv6Groups` without the fuel parameter. -/
theorem ipv6Groups_acc (s : List Char) :
    (ipv6Groups s).2 ≤ s.length ∧ (ipv6Groups s).1 ≤ (ipv6Groups s).2 :=
  ipv6Groups_acc_aux s.length s le_rfl

/-- Whitespace cuts `macGroups`: the groups parsed from `u ++ w :: v` are
exactly those parsed from `u`, with the boundary appended to the rest. -/
theorem macGroups_split {w : Char} (hw : isWsCh w = true) (v : List Char) :
    ∀ (n : ℕ) (u : List Char),
      macGroups n (u ++ w :: v) =
        (macGroups n u).map (fun p => (p.1, p.2 ++ w :: v)) := by
  intro n
  induction n with
  | zero => intro u; simp [macGroups]
  | succ n ih =>
      intro u
      rw [macGroups, macGroups]
      rw [runLen_append (ws_not_hex hw)]
      by_cases hk : runLen isHexCh u = 2
      · have h2le : 2 ≤ u.length := hk ▸ runLen_le_length isHexCh u
        rw [List.drop_append_of_le_length h2le]
        by_cases hcol : (u.drop 2).head? = some ':'
        · have hcol2 : (u.drop 2 ++ w :: v).head? = some ':' :=
            (head_append_ws (ws_ne hw (by decide)) (u.drop 2) v).mpr hcol
          rw [if_pos ⟨hk, hcol2⟩, if_pos ⟨hk, hcol⟩]
          have h3le : 3 ≤ u.length := by
            have := drop_head_lt hcol
            omega
          rw [List.drop_append_of_le_length h3le, ih (u.drop 3)]
          cases macGroups n (u.drop 3) <;> simp
        · have hcol2 : ¬ ((u.drop 2 ++ w :: v).head? = some ':') := fun hx =>
            hcol ((head_append_ws (ws_ne hw (by decide)) (u.drop 2) v).mp hx)
          rw [if_neg (fun hx => hcol2 hx.2), if_neg (fun hx => hcol hx.2)]
          simp
      · rw [if_neg (fun hx => hk hx.1), if_neg (fun hx => hk hx.1)]
        simp

/-- Whitespace cuts `ipv4Groups` the same way. -/
theorem ipv4Groups_split {w : Char} (hw : isWsCh w = true) (v : List Char) :
    ∀ (g : ℕ) (u : List Char),
      ipv4Groups g (u ++ w :: v) =
        (ipv4Groups g u).map (fun p => (p.1, p.2 ++ w :: v)) := by
  intro g
  induction g with
  | zero => intro u; simp [ipv4Groups]
  | succ g ih =>
      intro u
      rw [ipv4Groups, ipv4Groups]
      rw [runLen_append (ws_not_digit hw)]
      have hkle : runLen isDigitCh u ≤ u.length := runLen_le_length _ _
      rw [List.drop_append_of_le_length hkle]
      by_cases hdot : (u.drop (runLen isDigitCh u)).head? = some '.'
      · have hdot2 : (u.drop (runLen isDigitCh u) ++ w :: v).head? = some '.' :=
          (head_append_ws (ws_ne hw (by decide)) _ v).mpr hdot
        by_cases hr : 1 ≤ runLen isDigitCh u ∧ runLen isDigitCh u ≤ 3
        · rw [if_pos ⟨hr.1, hr.2, hdot2⟩, if_pos ⟨hr.1, hr.2, hdot⟩]
          have hlt : runLen isDigitCh u < u.length := drop_head_lt hdot
          rw [List.drop_append_of_le_length (by omega), ih]
          cases ipv4Groups g (u.drop (runLen isDigitCh u + 1)) <;> simp
        · rw [if_neg (fun hx => hr ⟨hx.1, hx.2.1⟩),
            if_neg (fun hx => hr ⟨hx.1, hx.2.1⟩)]
          simp
      · rw [if_neg (fun hx => hdot
            ((head_append_ws (ws_ne hw (by decide)) _ v).mp hx.2.2)),
          if_neg (fun hx => hdot hx.2.2)]
        simp

/-- Whitespace cuts `uuidGroups` the same way. -/
theorem uuidGroups_split {w : Char} (hw : isWsCh w = true) (v : List Char) :
    ∀ (g : ℕ) (u : List Char),
      uuidGroups g (u ++ w :: v) =
        (uuidGroups g u).map (fun p => (p.1, p.2 ++ w :: v)) := by
  intro g
  induction g with
  | zero => intro u; simp [uuidGroups]
  | succ g ih =>
      intro u
      rw [uuidGroups, uuidGroups]
      rw [runLen_append (ws_not_hex hw)]
      by_cases hk : runLen isHexCh u = 4
      · have h4le : 4 ≤ u.length := hk ▸ runLen_le_length isHexCh u
        rw [List.drop_append_of_le_length h4le]
        by_cases hdash : (u.drop 4).head? = some '-'
        · have hdash2 : (u.drop 4 ++ w :: v).head? = some '-' :=
            (head_append_ws (ws_ne hw (by decide)) (u.drop 4) v).mpr hdash
          rw [if_pos ⟨hk, hdash2⟩, if_pos ⟨hk, hdash⟩]
          have h5le : 5 ≤ u.length := by
            have := drop_head_lt hdash
            omega
          rw [List.drop_append_of_le_length h5le, ih (u.drop 5)]
          cases uuidGroups g (u.drop 5) <;> simp
        · rw [if_neg (fun hx => hdash
              ((head_append_ws (ws_ne hw (by decide)) (u.drop 4) v).mp hx.2)),
            if_neg (fun hx => hdash hx.2)]
          simp
      · rw [if_neg (fun hx => hk hx.1), if_neg (fun hx => hk hx.1)]
        simp

/-- Whitespace cuts `verGroups` the same way. -/
theorem verGroups_split {w : Char} (hw : isWsCh w = true) (v : List Char) :
    ∀ (g : ℕ) (u : List Char), verGroups g (u ++ w :: v) = verGroups g u := by
  intro g
  induction g with
  | zero => intro u; simp [verGroups]
  | succ g ih =>
      intro u
      rw [verGroups, verGroups]
      by_cases hdot : u.head? = some '.'
      · have hdot2 : (u ++ w :: v).head? = some '.' :=
          (head_append_ws (ws_ne hw (by decide)) u v).mpr hdot
        rw [if_pos hdot2, if_pos hdot]
        have h1le : 1 ≤ u.length := by
          cases u with
          | nil => simp at hdot
          | cons a t => simp
        rw [List.drop_append_of_le_length h1le, runLen_append (ws_not_digit hw)]
        by_cases hk : 1 ≤ runLen isDigitCh (u.drop 1)
        · rw [if_pos hk, if_pos hk]
          have hkle : runLen isDigitCh (u.drop 1) ≤ u.length - 1 := by
            simpa using runLen_le_length isDigitCh (u.drop 1)
          rw [List.drop_append_of_le_length (by omega), ih]
        · rw [if_neg hk, if_neg hk]
      · rw [if_neg (fun hx => hdot
            ((head_append_ws (ws_ne hw (by decide)) u v).mp hx)),
          if_neg hdot]

/-- Whitespace cuts the greedy IPv6 group prefix. -/
theorem ipv6Groups_split_aux {w : Char} (hw : isWsCh w = true) (v : List Char) :
    ∀ (n : ℕ) (u : List Char), u.length ≤ n →
      ipv6Groups (u ++ w :: v) = ipv6Groups u := by
  intro n
  induction n with
  | zero =>
      intro u hu
      have hnil : u = [] := List.eq_nil_of_length_eq_zero (Nat.le_zero.mp hu)
      subst hnil
      conv_rhs => rw [ipv6Groups]
      conv_lhs => rw [ipv6Groups]
      simp [runLen, ws_not_hex hw]
  | succ n ih =>
      intro u hu
      conv_rhs => rw [ipv6Groups]
      conv_lhs => rw [ipv6Groups]
      rw [runLen_append (ws_not_hex hw)]
      have hkle : runLen isHexCh u ≤ u.length := runLen_le_length _ _
      rw [List.drop_append_of_le_length hkle]
      by_cases hc : 1 ≤ runLen isHexCh u ∧ runLen isHexCh u ≤ 4 ∧
          (u.drop (runLen isHexCh u)).head? = some ':'
      · have hc2 : 1 ≤ runLen isHexCh u ∧ runLen isHexCh u ≤ 4 ∧
            (u.drop (runLen isHexCh u) ++ w :: v).head? = some ':' :=
          ⟨hc.1, hc.2.1,
            (head_append_ws (ws_ne hw (by decide)) _ v).mpr hc.2.2⟩
        rw [dif_pos hc2, dif_pos hc]
        have hlt : runLen isHexCh u < u.length := drop_head_lt hc.2.2
        rw [List.drop_append_of_le_length (by omega),
          ih _ (by simp only [List.length_drop]; omega)]
      · rw [dif_neg (fun hx => hc ⟨hx.1, hx.2.1,
            (head_append_ws (ws_ne hw (by decide)) _ v).mp hx.2.2⟩),
          dif_neg hc]

/-- Whitespace cuts the greedy IPv6 group prefix (length-free form). -/
theorem ipv6Groups_split {w : Char} (hw : isWsCh w = true) (v u : List Char) :
    ipv6Groups (u ++ w :: v) = ipv6Groups u :=
  ipv6Groups_split_aux hw v u.length u le_rfl

/-- Whitespace cuts a MAC match: matching against `u ++ w :: v` is matching
against `u`. -/
theorem macLen_split {w : Char} (hw : isWsCh w = true) (v : List Char)
    (po : Bool) (u : List Char) :
    macLen po (u ++ w :: v) = macLen po u := by
  cases po with
  | false => rfl
  | true =>
      rw [macLen, macLen]
      rw [macGroups_split hw v 5 u]
      cases hq : macGroups 5 u with
      | none => simp
      | some p =>
          obtain ⟨n, rest⟩ := p
          simp only [Option.map_some']
          show (if runLen isHexCh (rest ++ w :: v) = 2 ∧
                  headNonword ((rest ++ w :: v).drop 2) then some (n + 2)
                else none) =
              (if runLen isHexCh rest = 2 ∧ headNonword (rest.drop 2) then
                some (n + 2) else none)
          rw [runLen_append (ws_not_hex hw)]
          by_cases h2 : runLen isHexCh rest = 2
          · have h2le : 2 ≤ rest.length := h2 ▸ runLen_le_length isHexCh rest
            rw [List.drop_append_of_le_length h2le, headNonword_append hw]
          · rw [if_neg (fun hx => h2 hx.1), if_neg (fun hx => h2 hx.1)]

/-- A MAC match is non-empty and stays within the string. -/
theorem macLen_bounds {po : Bool} {s : List Char} {n : ℕ}
    (h : macLen po s = some n) : 1 ≤ n ∧ n ≤ s.length := by
  cases po with
  | false => rw [macLen] at h; simp at h
  | true =>
      rw [macLen] at h
      rw [if_neg (show ¬((!true) = true) by decide)] at h
      cases hq : macGroups 5 s with
      | none => rw [hq] at h; simp at h
      | some p =>
          rw [hq] at h
          obtain ⟨m, rest⟩ := p
          have h2 : (if runLen isHexCh rest = 2 ∧ headNonword (rest.drop 2)
              then some (m + 2) else none) = some n := h
          clear h
          split_ifs at h2 with hc
          · rw [Option.some.injEq] at h2
            have hacc := macGroups_acc 5 s (m, rest) hq
            have hr2 : 2 ≤ rest.length := hc.1 ▸ runLen_le_length isHexCh rest
            have hrl : rest.length = s.length - m := by
              have := hacc.2
              simp only at this
              rw [this, List.length_drop]
            have hm := hacc.1
            simp only at hm hrl
            omega


/-- A MAC match never starts at a whitespace character. -/
theorem macLen_ws_none {w : Char} (hw : isWsCh w = true) (v : List Char)
    (po : Bool) : macLen po (w :: v) = none := by
  cases po with
  | false => rfl
  | true =>
      have hg : macGroups 5 (w :: v) = none := by
        have h0 : runLen isHexCh (w :: v) = 0 := by
          simp [runLen, ws_not_hex hw]
        rw [show (5 : ℕ) = 4 + 1 from rfl, macGroups, h0]
        simp
      rw [macLen, hg]
      rw [if_neg (show ¬((!true) = true) by decide)]

/-- Whitespace cuts an IPv4 match. -/
theorem ipv4Len_split {w : Char} (hw : isWsCh w = true) (v : List Char)
    (po : Bool) (u : List Char) :
    ipv4Len po (u ++ w :: v) = ipv4Len po u := by
  cases po with
  | false => rfl
  | true =>
      rw [ipv4Len, ipv4Len]
      rw [ipv4Groups_split hw v 3 u]
      cases hq : ipv4Groups 3 u with
      | none => simp
      | some p =>
          obtain ⟨n, rest⟩ := p
          simp only [Option.map_some']
          show (if 1 ≤ runLen isDigitCh (rest ++ w :: v) ∧
                  runLen isDigitCh (rest ++ w :: v) ≤ 3 ∧
                  headNonword ((rest ++ w :: v).drop
                    (runLen isDigitCh (rest ++ w :: v))) then
                some (n + runLen isDigitCh (rest ++ w :: v))
              else none) =
              (if 1 ≤ runLen isDigitCh rest ∧ runLen isDigitCh rest ≤ 3 ∧
                  headNonword (rest.drop (runLen isDigitCh rest)) then
                some (n + runLen isDigitCh rest)
              else none)
          rw [runLen_append (ws_not_digit hw)]
          rw [List.drop_append_of_le_length (runLen_le_length isDigitCh rest)]
          rw [headNonword_append hw]

/-- An IPv4 match is non-empty and stays within the string. -/
theorem ipv4Len_bounds {po : Bool} {s : List Char} {n : ℕ}
    (h : ipv4Len po s = some n) : 1 ≤ n ∧ n ≤ s.length := by
  cases po with
  | false => rw [ipv4Len] at h; simp at h
  | true =>
      rw [ipv4Len] at h
      rw [if_neg (show ¬((!true) = true) by decide)] at h
      cases hq : ipv4Groups 3 s with
      | none => rw [hq] at h; simp at h
      | some p =>
          rw [hq] at h
          obtain ⟨m, rest⟩ := p
          have h2 : (if 1 ≤ runLen isDigitCh rest ∧ runLen isDigitCh rest ≤ 3 ∧
              headNonword (rest.drop (runLen isDigitCh rest)) then
                some (m + runLen isDigitCh rest)
              else none) = some n := h
          clear h
          split_ifs at h2 with hc
          rw [Option.some.injEq] at h2
          have hacc := ipv4Groups_acc 3 s (m, rest) hq
          have hkle : runLen isDigitCh rest ≤ rest.length :=
            runLen_le_length isDigitCh rest
          have hrl : rest.length = s.length - m := by
            have hr := hacc.2
            simp only at hr
            rw [hr, List.length_drop]
          have hm := hacc.1
          simp only at hm hrl
          have hk1 := hc.1
          omega

/-- An IPv4 match never starts at a whitespace character. -/
theorem ipv4Len_ws_none {w : Char} (hw : isWsCh w = true) (v : List Char)
    (po : Bool) : ipv4Len po (w :: v) = none := by
  cases po with
  | false => rfl
  | true =>
      have hg : ipv4Groups 3 (w :: v) = none := by
        have h0 : runLen isDigitCh (w :: v) = 0 := by
          simp [runLen, ws_not_digit hw]
        rw [show (3 : ℕ) = 2 + 1 from rfl, ipv4Groups]
        simp [h0]
      rw [ipv4Len, hg, if_neg (show ¬((!true) = true) by decide)]

/-- Whitespace cuts a hex-literal match. -/
theorem hexLen_split {w : Char} (hw : isWsCh w = true) (v : List Char)
    (po : Bool) (u : List Char) :
    hexLen po (u ++ w :: v) = hexLen po u := by
  cases po with
  | false => rfl
  | true =>
      rw [hexLen, hexLen]
      by_cases hh : u.head? = some '0' ∧ (u.drop 1).head? = some 'x'
      · have h1lt : 1 < u.length := drop_head_lt hh.2
        have hh2 : (u ++ w :: v).head? = some '0' ∧
            ((u ++ w :: v).drop 1).head? = some 'x' := by
          refine ⟨(head_append_ws (ws_ne hw (by decide)) u v).mpr hh.1, ?_⟩
          rw [List.drop_append_of_le_length (by omega)]
          exact (head_append_ws (ws_ne hw (by decide)) (u.drop 1) v).mpr hh.2
        rw [if_pos hh2, if_pos hh]
        rw [List.drop_append_of_le_length (show 2 ≤ u.length by omega)]
        rw [runLen_append (ws_not_hex hw)]
        have hkle : runLen isHexCh (u.drop 2) ≤ u.length - 2 := by
          simpa using runLen_le_length isHexCh (u.drop 2)
        have key : ∀ k : ℕ, k ≤ u.length - 2 →
            (if 1 ≤ k ∧ headNonword ((u ++ w :: v).drop (2 + k)) then
              some (2 + k) else none) =
            (if 1 ≤ k ∧ headNonword (u.drop (2 + k)) then
              some (2 + k) else none) := by
          intro k hk
          rw [List.drop_append_of_le_length (by omega), headNonword_append hw]
        exact key _ hkle
      · have hneg : ¬((u ++ w :: v).head? = some '0' ∧
            ((u ++ w :: v).drop 1).head? = some 'x') := by
          intro hx
          have h0 : u.head? = some '0' :=
            (head_append_ws (ws_ne hw (by decide)) u v).mp hx.1
          have h1 : 1 ≤ u.length := by
            cases u with
            | nil => simp at h0
            | cons a t => simp
          refine hh ⟨h0, ?_⟩
          have hx2 := hx.2
          rw [List.drop_append_of_le_length h1] at hx2
          exact (head_append_ws (ws_ne hw (by decide)) (u.drop 1) v).mp hx2
        rw [if_neg hneg, if_neg hh]

/-- A hex-literal match is non-empty and stays within the string. -/
theorem hexLen_bounds {po : Bool} {s : List Char} {n : ℕ}
    (h : hexLen po s = some n) : 1 ≤ n ∧ n ≤ s.length := by
  cases po with
  | false => rw [hexLen] at h; simp at h
  | true =>
      rw [hexLen] at h
      rw [if_neg (show ¬((!true) = true) by decide)] at h
      by_cases hh : s.head? = some '0' ∧ (s.drop 1).head? = some 'x'
      · rw [if_pos hh] at h
        have h2 : (if 1 ≤ runLen isHexCh (s.drop 2) ∧
            headNonword (s.drop (2 + runLen isHexCh (s.drop 2))) then
              some (2 + runLen isHexCh (s.drop 2))
            else none) = some n := h
        clear h
        split_ifs at h2 with hc
        rw [Option.some.injEq] at h2
        have h1lt : 1 < s.length := drop_head_lt hh.2
        have hkle : runLen isHexCh (s.drop 2) ≤ s.length - 2 := by
          simpa using runLen_le_length isHexCh (s.drop 2)
        omega
      · rw [if_neg hh] at h
        exact absurd h (by simp)

/-- A hex-literal match never starts at a whitespace character. -/
theorem hexLen_ws_none {w : Char} (hw : isWsCh w = true) (v : List Char)
    (po : Bool) : hexLen po (w :: v) = none := by
  cases po with
  | false => rfl
  | true =>
      have hneg : ¬((w :: v).head? = some '0' ∧
          ((w :: v).drop 1).head? = some 'x') := by
        intro hx
        have hx1 := hx.1
        rw [List.head?_cons, Option.some.injEq] at hx1
        exact ws_ne hw (by decide) hx1
      rw [hexLen, if_neg (show ¬((!true) = true) by decide), if_neg hneg]

/-- Whitespace cuts a hash-number match. -/
theorem hashLen_split {w : Char} (hw : isWsCh w = true) (v : List Char)
    (po : Bool) (u : List Char) :
    hashLen po (u ++ w :: v) = hashLen po u := by
  rw [hashLen, hashLen]
  by_cases hh : u.head? = some '#'
  · have hh2 : (u ++ w :: v).head? = some '#' :=
      (head_append_ws (ws_ne hw (by decide)) u v).mpr hh
    rw [if_pos hh2, if_pos hh]
    have h1 : 1 ≤ u.length := by
      cases u with
      | nil => simp at hh
      | cons a t => simp
    rw [List.drop_append_of_le_length h1]
    rw [runLen_append (ws_not_digit hw)]
  · rw [if_neg (fun hx => hh
        ((head_append_ws (ws_ne hw (by decide)) u v).mp hx)), if_neg hh]

/-- A hash-number match is non-empty and stays within the string. -/
theorem hashLen_bounds {po : Bool} {s : List Char} {n : ℕ}
    (h : hashLen po s = some n) : 1 ≤ n ∧ n ≤ s.length := by
  rw [hashLen] at h
  by_cases hh : s.head? = some '#'
  · rw [if_pos hh] at h
    have h2 : (if 1 ≤ runLen isDigitCh (s.drop 1) then
        some (1 + runLen isDigitCh (s.drop 1)) else none) = some n := h
    clear h
    split_ifs at h2 with hk
    rw [Option.some.injEq] at h2
    have h1 : 1 ≤ s.length := by
      cases s with
      | nil => simp at hh
      | cons a t => simp
    have hkle : runLen isDigitCh (s.drop 1) ≤ s.length - 1 := by
      simpa using runLen_le_length isDigitCh (s.drop 1)
    omega
  · rw [if_neg hh] at h
    exact absurd h (by simp)

/-- A hash-number match never starts at a whitespace character. -/
theorem hashLen_ws_none {w : Char} (hw : isWsCh w = true) (v : List Char)
    (po : Bool) : hashLen po (w :: v) = none := by
  have hneg : ¬((w :: v).head? = some '#') := by
    intro hx
    rw [List.head?_cons, Option.some.injEq] at hx
    exact ws_ne hw (by decide) hx
  rw [hashLen, if_neg hneg]

/-- Whitespace cuts a UUID match. -/
theorem uuidLen_split {w : Char} (hw : isWsCh w = true) (v : List Char)
    (po : Bool) (u : List Char) :
    uuidLen po (u ++ w :: v) = uuidLen po u := by
  cases po with
  | false => rfl
  | true =>
      rw [uuidLen, uuidLen, runLen_append (ws_not_hex hw)]
      rw [if_neg (show ¬((!true) = true) by decide),
        if_neg (show ¬((!true) = true) by decide)]
      by_cases h8 : runLen isHexCh u = 8
      · have h8le : 8 ≤ u.length := h8 ▸ runLen_le_length isHexCh u
        rw [List.drop_append_of_le_length h8le]
        by_cases hd : (u.drop 8).head? = some '-'
        · have hd2 : (u.drop 8 ++ w :: v).head? = some '-' :=
            (head_append_ws (ws_ne hw (by decide)) (u.drop 8) v).mpr hd
          have hcl : runLen isHexCh u = 8 ∧
              (u.drop 8 ++ w :: v).head? = some '-' := ⟨h8, hd2⟩
          have hcr : runLen isHexCh u = 8 ∧
              (u.drop 8).head? = some '-' := ⟨h8, hd⟩
          rw [if_pos hcl, if_pos hcr]
          have h9le : 9 ≤ u.length := by
            have := drop_head_lt hd
            omega
          rw [List.drop_append_of_le_length h9le,
            uuidGroups_split hw v 3 (u.drop 9)]
          cases hq : uuidGroups 3 (u.drop 9) with
          | none => simp
          | some p =>
              obtain ⟨n, rest⟩ := p
              simp only [Option.map_some']
              show (if runLen isHexCh (rest ++ w :: v) = 12 ∧
                      headNonword ((rest ++ w :: v).drop 12) then
                    some (9 + n + 12) else none) =
                  (if runLen isHexCh rest = 12 ∧ headNonword (rest.drop 12)
                    then some (9 + n + 12) else none)
              rw [runLen_append (ws_not_hex hw)]
              by_cases h12 : runLen isHexCh rest = 12
              · have h12le : 12 ≤ rest.length :=
                  h12 ▸ runLen_le_length isHexCh rest
                rw [List.drop_append_of_le_length h12le,
                  headNonword_append hw]
              · rw [if_neg (fun hx => h12 hx.1), if_neg (fun hx => h12 hx.1)]
        · rw [if_neg (fun hx => hd
              ((head_append_ws (ws_ne hw (by decide)) (u.drop 8) v).mp hx.2)),
            if_neg (fun hx => hd hx.2)]
      · rw [if_neg (fun hx => h8 hx.1), if_neg (fun hx => h8 hx.1)]

/-- A UUID match is non-empty and stays within the string. -/
theorem uuidLen_bounds {po : Bool} {s : List Char} {n : ℕ}
    (h : uuidLen po s = some n) : 1 ≤ n ∧ n ≤ s.length := by
  cases po with
  | false => rw [uuidLen] at h; simp at h
  | true =>
      rw [uuidLen] at h
      rw [if_neg (show ¬((!true) = true) by decide)] at h
      by_cases h8 : runLen isHexCh s = 8 ∧ (s.drop 8).head? = some '-'
      · rw [if_pos h8] at h
        cases hq : uuidGroups 3 (s.drop 9) with
        | none => rw [hq] at h; simp at h
        | some p =>
            rw [hq] at h
            obtain ⟨m, rest⟩ := p
            have h2 : (if runLen isHexCh rest = 12 ∧
                headNonword (rest.drop 12) then some (9 + m + 12)
                else none) = some n := h
            clear h
            split_ifs at h2 with hc
            rw [Option.some.injEq] at h2
            have hacc := uuidGroups_acc 3 (s.drop 9) (m, rest) hq
            have h12le : 12 ≤ rest.length := hc.1 ▸ runLen_le_length isHexCh rest
            have hrl : rest.length = s.length - 9 - m := by
              have hr := hacc.2
              simp only at hr
              rw [hr, List.length_drop, List.length_drop]
            have hm := hacc.1
            simp only [List.length_drop] at hm
            omega
      · rw [if_neg h8] at h
        exact absurd h (by simp)

/-- A UUID match never starts at a whitespace character. -/
theorem uuidLen_ws_none {w : Char} (hw : isWsCh w = true) (v : List Char)
    (po : Bool) : uuidLen po (w :: v) = none := by
  cases po with
  | false => rfl
  | true =>
      have h0 : runLen isHexCh (w :: v) = 0 := by
        simp [runLen, ws_not_hex hw]
      rw [uuidLen, if_neg (show ¬((!true) = true) by decide),
        if_neg (fun hx => by rw [h0] at hx; exact absurd hx.1 (by decide))]

/-- Whitespace cuts an IPv6 match. -/
theorem ipv6Len_split {w : Char} (hw : isWsCh w = true) (v : List Char)
    (po : Bool) (u : List Char) :
    ipv6Len po (u ++ w :: v) = ipv6Len po u := by
  cases po with
  | false => rfl
  | true =>
      rw [ipv6Len, ipv6Len, ipv6Groups_split hw v u]
      rw [List.drop_append_of_le_length (ipv6Groups_acc u).1]
      rw [runLen_append (ws_not_hex hw)]
      rw [List.drop_append_of_le_length
        (runLen_le_length isHexCh (u.drop (ipv6Groups u).2))]
      rw [headNonword_append hw]

/-- An IPv6 match is non-empty and stays within the string. -/
theorem ipv6Len_bounds {po : Bool} {s : List Char} {n : ℕ}
    (h : ipv6Len po s = some n) : 1 ≤ n ∧ n ≤ s.length := by
  cases po with
  | false => rw [ipv6Len] at h; simp at h
  | true =>
      rw [ipv6Len] at h
      rw [if_neg (show ¬((!true) = true) by decide)] at h
      have hacc := ipv6Groups_acc s
      have hr : runLen isHexCh (s.drop (ipv6Groups s).2) ≤
          s.length - (ipv6Groups s).2 := by
        simpa using runLen_le_length isHexCh (s.drop (ipv6Groups s).2)
      split_ifs at h with hc hc3
      · rw [Option.some.injEq] at h
        have h1r := hc.2.1
        omega
      · rw [Option.some.injEq] at h
        omega

/-- An IPv6 match never starts at a whitespace character. -/
theorem ipv6Len_ws_none {w : Char} (hw : isWsCh w = true) (v : List Char)
    (po : Bool) : ipv6Len po (w :: v) = none := by
  cases po with
  | false => rfl
  | true =>
      have hg : ipv6Groups (w :: v) = (0, 0) := by
        conv_lhs => rw [ipv6Groups]
        simp [runLen, ws_not_hex hw]
      rw [ipv6Len, if_neg (show ¬((!true) = true) by decide), hg]
      simp

/-- The last element with default of a non-empty list is an element. -/
theorem getLastD_mem : ∀ (l : List ℕ), l ≠ [] → ∀ d : ℕ, l.getLastD d ∈ l := by
  intro l
  induction l with
  | nil => intro h; exact absurd rfl h
  | cons a t ih =>
      intro _ d
      rw [List.getLastD_cons]
      cases t with
      | nil => simp
      | cons b t2 => exact List.mem_cons_of_mem a (ih (by simp) a)

/-- Whitespace cuts a version match. -/
theorem versionLen_split {w : Char} (hw : isWsCh w = true) (v : List Char)
    (po : Bool) (u : List Char) :
    versionLen po (u ++ w :: v) = versionLen po u := by
  cases po with
  | false => rfl
  | true =>
      rw [versionLen, versionLen, runLen_append (ws_not_digit hw)]
      by_cases h0 : runLen isDigitCh u = 0
      · rw [if_pos h0, if_pos h0]
      · rw [if_neg h0, if_neg h0]
        rw [List.drop_append_of_le_length (runLen_le_length isDigitCh u),
          verGroups_split hw v 3 (u.drop (runLen isDigitCh u))]
        cases hE : verGroups 3 (u.drop (runLen isDigitCh u)) with
        | nil => rfl
        | cons e es =>
            have hL1 : (e :: es).getLastD 0 ∈ e :: es :=
              getLastD_mem _ (by simp) 0
            have hL1le : (e :: es).getLastD 0 ≤
                u.length - runLen isDigitCh u := by
              have hacc := verGroups_acc 3 (u.drop (runLen isDigitCh u))
                ((e :: es).getLastD 0) (by rw [hE]; exact hL1)
              have h2 := hacc.2
              rw [List.length_drop] at h2
              exact h2
            have hrle : runLen isDigitCh u ≤ u.length :=
              runLen_le_length isDigitCh u
            show (if headNonword ((u ++ w :: v).drop
                    (runLen isDigitCh u + (e :: es).getLastD 0)) then
                  some (runLen isDigitCh u + (e :: es).getLastD 0)
                else if 2 ≤ (e :: es).length then
                  some (runLen isDigitCh u +
                    ((e :: es).take ((e :: es).length - 1)).getLastD 0)
                else none) =
                (if headNonword (u.drop
                    (runLen isDigitCh u + (e :: es).getLastD 0)) then
                  some (runLen isDigitCh u + (e :: es).getLastD 0)
                else if 2 ≤ (e :: es).length then
                  some (runLen isDigitCh u +
                    ((e :: es).take ((e :: es).length - 1)).getLastD 0)
                else none)
            rw [List.drop_append_of_le_length (by omega),
              headNonword_append hw]

/-- A version match is non-empty and stays within the string. -/
theorem versionLen_bounds {po : Bool} {s : List Char} {n : ℕ}
    (h : versionLen po s = some n) : 1 ≤ n ∧ n ≤ s.length := by
  cases po with
  | false => rw [versionLen] at h; simp at h
  | true =>
      rw [versionLen] at h
      rw [if_neg (show ¬((!true) = true) by decide)] at h
      by_cases h0 : runLen isDigitCh s = 0
      · rw [if_pos h0] at h
        exact absurd h (by simp)
      · rw [if_neg h0] at h
        have h0p : 1 ≤ runLen isDigitCh s := Nat.one_le_iff_ne_zero.mpr h0
        have hrle : runLen isDigitCh s ≤ s.length :=
          runLen_le_length isDigitCh s
        cases hE : verGroups 3 (s.drop (runLen isDigitCh s)) with
        | nil => rw [hE] at h; simp at h
        | cons e es =>
            rw [hE] at h
            have h2 : (if headNonword (s.drop
                  (runLen isDigitCh s + (e :: es).getLastD 0)) then
                some (runLen isDigitCh s + (e :: es).getLastD 0)
              else if 2 ≤ (e :: es).length then
                some (runLen isDigitCh s +
                  ((e :: es).take ((e :: es).length - 1)).getLastD 0)
              else none) = some n := h
            clear h
            have hmem : ∀ x ∈ e :: es,
                1 ≤ x ∧ x ≤ s.length - runLen isDigitCh s := by
              intro x hx
              have hacc := verGroups_acc 3 (s.drop (runLen isDigitCh s)) x
                (by rw [hE]; exact hx)
              rw [List.length_drop] at hacc
              exact hacc
            split_ifs at h2 with hnw h2len
            · rw [Option.some.injEq] at h2
              have := (hmem _ (getLastD_mem _ (by simp) 0)).2
              omega
            · rw [Option.some.injEq] at h2
              have htne : (e :: es).take ((e :: es).length - 1) ≠ [] := by
                cases es with
                | nil => simp at h2len
                | cons b t => simp
              have hL2 : ((e :: es).take ((e :: es).length - 1)).getLastD 0 ∈
                  e :: es :=
                List.mem_of_mem_take (getLastD_mem _ htne 0)
              have := (hmem _ hL2).2
              omega

/-- A version match never starts at a whitespace character. -/
theorem versionLen_ws_none {w : Char} (hw : isWsCh w = true) (v : List Char)
    (po : Bool) : versionLen po (w :: v) = none := by
  cases po with
  | false => rfl
  | true =>
      have h0 : runLen isDigitCh (w :: v) = 0 := by
        simp [runLen, ws_not_digit hw]
      rw [versionLen, if_neg (show ¬((!true) = true) by decide), if_pos h0]

/-- Whitespace cuts the sign test of the NUMBER pattern. -/
theorem numSign_split {w : Char} (hw : isWsCh w = true) (v u : List Char) :
    numSign (u ++ w :: v) = numSign u := by
  rw [numSign, numSign]
  exact if_congr (or_congr
    (head_append_ws (ws_ne hw (by decide)) u v)
    (head_append_ws (ws_ne hw (by decide)) u v)) rfl rfl

/-- The sign length is at most the string length. -/
theorem numSign_le (u : List Char) : numSign u ≤ u.length := by
  rw [numSign]
  split_ifs with hc
  · rcases hc with hx | hx <;>
      (cases u with
       | nil => simp at hx
       | cons a t => simp)
  · simp

/-- No sign at a whitespace character. -/
theorem numSign_ws {w : Char} (hw : isWsCh w = true) (v : List Char) :
    numSign (w :: v) = 0 := by
  rw [numSign, if_neg ?_]
  rintro (hx | hx) <;>
    (rw [List.head?_cons, Option.some.injEq] at hx
     exact ws_ne hw (by decide) hx)

/-- Whitespace cuts `numAfter`: the boundary stays just past the left piece. -/
theorem numAfter_split {w : Char} (hw : isWsCh w = true) (v u : List Char) :
    numAfter (u ++ w :: v) = numAfter u ++ w :: v := by
  rw [numAfter, numAfter, numSign_split hw v u]
  rw [List.drop_append_of_le_length (numSign_le u),
    runLen_append (ws_not_digit hw)]
  have hR : runLen isDigitCh (u.drop (numSign u)) ≤
      u.length - numSign u := by
    simpa using runLen_le_length isDigitCh (u.drop (numSign u))
  have hS := numSign_le u
  rw [List.drop_append_of_le_length (by omega)]

/-- Whitespace cuts the fractional-part test of the NUMBER pattern. -/
theorem numFrac_split {w : Char} (hw : isWsCh w = true) (v u : List Char) :
    numFrac (u ++ w :: v) = numFrac u := by
  rw [numFrac, numFrac, numAfter_split hw v u]
  by_cases hdot : (numAfter u).head? = some '.'
  · have hdot2 : (numAfter u ++ w :: v).head? = some '.' :=
      (head_append_ws (ws_ne hw (by decide)) _ v).mpr hdot
    rw [if_pos hdot2, if_pos hdot]
    have h1 : 1 ≤ (numAfter u).length := by
      cases hA : numAfter u with
      | nil => rw [hA] at hdot; exact absurd hdot (by simp)
      | cons a t => simp
    rw [List.drop_append_of_le_length h1, runLen_append (ws_not_digit hw)]
    have hkle : runLen isDigitCh ((numAfter u).drop 1) ≤
        (numAfter u).length - 1 := by
      simpa using runLen_le_length isDigitCh ((numAfter u).drop 1)
    rw [List.drop_append_of_le_length (by omega), headNonword_append hw]
  · rw [if_neg (fun hx => hdot
        ((head_append_ws (ws_ne hw (by decide)) _ v).mp hx)), if_neg hdot]

/-- Whitespace cuts a number match. -/
theorem numberLen_split {w : Char} (hw : isWsCh w = true) (v : List Char)
    (po : Bool) (u : List Char) :
    numberLen po (u ++ w :: v) = numberLen po u := by
  cases po with
  | false => rfl
  | true =>
      rw [numberLen, numberLen, numSign_split hw v u,
        List.drop_append_of_le_length (numSign_le u),
        runLen_append (ws_not_digit hw), numFrac_split hw v u,
        numAfter_split hw v u, headNonword_append hw]

/-- A number match is non-empty and stays within the string. -/
theorem numberLen_bounds {po : Bool} {s : List Char} {n : ℕ}
    (h : numberLen po s = some n) : 1 ≤ n ∧ n ≤ s.length := by
  cases po with
  | false => rw [numberLen] at h; simp at h
  | true =>
      rw [numberLen] at h
      rw [if_neg (show ¬((!true) = true) by decide)] at h
      by_cases hr : runLen isDigitCh (s.drop (numSign s)) = 0
      · rw [if_pos hr] at h
        exact absurd h (by simp)
      · rw [if_neg hr] at h
        have hS := numSign_le s
        have hR : runLen isDigitCh (s.drop (numSign s)) ≤
            s.length - numSign s := by
          simpa using runLen_le_length isDigitCh (s.drop (numSign s))
        have hr1 : 1 ≤ runLen isDigitCh (s.drop (numSign s)) :=
          Nat.one_le_iff_ne_zero.mpr hr
        have hA : (numAfter s).length =
            s.length - (numSign s + runLen isDigitCh (s.drop (numSign s))) := by
          rw [numAfter, List.length_drop]
        cases hF : numFrac s with
        | none =>
            rw [hF] at h
            have h2 : (if headNonword (numAfter s) then
                some (numSign s + runLen isDigitCh (s.drop (numSign s)))
              else none) = some n := h
            clear h
            split_ifs at h2 with hnw
            rw [Option.some.injEq] at h2
            omega
        | some fl =>
            rw [hF] at h
            have h2 : some (numSign s +
                runLen isDigitCh (s.drop (numSign s)) + fl) = some n := h
            clear h
            rw [Option.some.injEq] at h2
            have hfl : fl ≤ (numAfter s).length := by
              rw [numFrac] at hF
              split_ifs at hF with hdot hc
              rw [Option.some.injEq] at hF
              have hd1 : 1 ≤ (numAfter s).length := by
                cases hA2 : numAfter s with
                | nil => rw [hA2] at hdot; exact absurd hdot (by simp)
                | cons a t => simp
              have hkle : runLen isDigitCh ((numAfter s).drop 1) ≤
                  (numAfter s).length - 1 := by
                simpa using runLen_le_length isDigitCh ((numAfter s).drop 1)
              omega
            omega

/-- A number match never starts at a whitespace character. -/
theorem numberLen_ws_none {w : Char} (hw : isWsCh w = true) (v : List Char)
    (po : Bool) : numberLen po (w :: v) = none := by
  cases po with
  | false => rfl
  | true =>
      rw [numberLen, if_neg (show ¬((!true) = true) by decide), numSign_ws hw]
      have h0 : runLen isDigitCh ((w :: v).drop 0) = 0 := by
        simp [runLen, ws_not_digit hw]
      rw [if_pos h0]

/-- For a masking pass whose pattern respects whitespace boundaries (never
matches across or at a whitespace character), `re.sub` over `u ++ w :: v`
is `re.sub` over `u`, the untouched `w`, and a fresh pass over `v`. -/
theorem substGo_split (m : Matcher) {w : Char} (v : List Char)
    (hw : isWsCh w = true)
    (hsplit : ∀ (po : Bool) (u : List Char),
      m.matchLen po (u ++ w :: v) = m.matchLen po u)
    (hbound : ∀ (po : Bool) (s : List Char) (n : ℕ),
      m.matchLen po s = some n → 1 ≤ n ∧ n ≤ s.length)
    (hwn : ∀ po : Bool, m.matchLen po (w :: v) = none) :
    ∀ (N : ℕ) (po : Bool) (u : List Char), u.length ≤ N →
      substGo m po (u ++ w :: v) =
        substGo m po u ++ w :: substGo m true v := by
  have hnil : ∀ po : Bool, substGo m po ([] ++ w :: v) =
      substGo m po [] ++ w :: substGo m true v := by
    intro po
    conv_lhs => rw [show ([] : List Char) ++ w :: v = w :: v from rfl, substGo]
    rw [hwn po]
    simp [substGo, ws_not_word hw]
  intro N
  induction N with
  | zero =>
      intro po u hu
      have : u = [] := List.eq_nil_of_length_eq_zero (Nat.le_zero.mp hu)
      subst this
      exact hnil po
  | succ N ih =>
      intro po u hu
      cases u with
      | nil => exact hnil po
      | cons c u2 =>
          conv_lhs => rw [List.cons_append, substGo]
          conv_rhs => rw [substGo]
          rw [show c :: (u2 ++ w :: v) = (c :: u2) ++ w :: v from
            (List.cons_append c u2 (w :: v)).symm]
          rw [hsplit po (c :: u2)]
          cases hq : m.matchLen po (c :: u2) with
          | none =>
              show c :: substGo m (!(isWordCh c)) (u2 ++ w :: v) =
                (c :: substGo m (!(isWordCh c)) u2) ++ w :: substGo m true v
              rw [ih (!(isWordCh c)) u2
                (by simp only [List.length_cons] at hu; omega)]
              rfl
          | some n =>
              obtain ⟨hn1, hn2⟩ := hbound po (c :: u2) n hq
              show m.repl ++ substGo m
                  (!(isWordCh ((c :: (u2 ++ w :: v)).getD (n - 1) c)))
                  ((c :: (u2 ++ w :: v)).drop (max n 1)) =
                (m.repl ++ substGo m
                  (!(isWordCh ((c :: u2).getD (n - 1) c)))
                  ((c :: u2).drop (max n 1))) ++ w :: substGo m true v
              have hmax : max n 1 = n := Nat.max_eq_left hn1
              have hlen : (c :: u2).length = u2.length + 1 := by simp
              have hgetD : (c :: (u2 ++ w :: v)).getD (n - 1) c =
                  (c :: u2).getD (n - 1) c := by
                rw [show c :: (u2 ++ w :: v) = (c :: u2) ++ w :: v from
                  (List.cons_append c u2 (w :: v)).symm]
                exact getD_append_left (by omega) c
              have hdrop : (c :: (u2 ++ w :: v)).drop (max n 1) =
                  (c :: u2).drop n ++ w :: v := by
                rw [hmax, show c :: (u2 ++ w :: v) = (c :: u2) ++ w :: v from
                  (List.cons_append c u2 (w :: v)).symm]
                exact List.drop_append_of_le_length hn2
              rw [hgetD, hdrop, hmax]
              rw [ih (!(isWordCh ((c :: u2).getD (n - 1) c)))
                ((c :: u2).drop n)
                (by simp only [List.length_drop, List.length_cons] at *
                    omega)]
              rw [List.append_assoc]

/-- Folding whitespace-respecting masking passes over `a ++ w :: b` masks
`a` and `b` independently and never touches `w`. -/
theorem foldl_subst_split {w : Char} (hw : isWsCh w = true) :
    ∀ ms : List Matcher,
      (∀ m ∈ ms,
        (∀ (v2 : List Char) (po : Bool) (u : List Char),
          m.matchLen po (u ++ w :: v2) = m.matchLen po u) ∧
        (∀ (po : Bool) (s : List Char) (n : ℕ),
          m.matchLen po s = some n → 1 ≤ n ∧ n ≤ s.length) ∧
        (∀ (v2 : List Char) (po : Bool), m.matchLen po (w :: v2) = none)) →
      ∀ a b : List Char,
        ms.foldl (fun acc m => substPass m acc) (a ++ w :: b) =
          ms.foldl (fun acc m => substPass m acc) a ++ w ::
            ms.foldl (fun acc m => substPass m acc) b := by
  intro ms
  induction ms with
  | nil => intro _ a b; simp
  | cons m rest ih =>
      intro hms a b
      have hm := hms m (by simp)
      simp only [List.foldl_cons]
      rw [show substPass m (a ++ w :: b) =
          substPass m a ++ w :: substPass m b from
        substGo_split m b hw (fun po u => hm.1 b po u) hm.2.1
          (fun po => hm.2.2 b po) a.length true a le_rfl]
      exact ih (fun m2 h2 => hms m2 (by simp [h2])) (substPass m a)
        (substPass m b)

/-- Whitespace cuts the whole eight-pass masking pipeline. -/
theorem maskAll_split {w : Char} (hw : isWsCh w = true) (a b : List Char) :
    maskAll (a ++ w :: b) = maskAll a ++ w :: maskAll b := by
  rw [maskAll, maskAll, maskAll]
  refine foldl_subst_split hw maskMatchers ?_ a b
  intro m hm
  rw [maskMatchers] at hm
  simp only [List.mem_cons, List.not_mem_nil, or_false] at hm
  rcases hm with rfl | rfl | rfl | rfl | rfl | rfl | rfl | rfl
  · exact ⟨fun v2 po u => macLen_split hw v2 po u,
      fun po s n h => macLen_bounds h,
      fun v2 po => macLen_ws_none hw v2 po⟩
  · exact ⟨fun v2 po u => ipv4Len_split hw v2 po u,
      fun po s n h => ipv4Len_bounds h,
      fun v2 po => ipv4Len_ws_none hw v2 po⟩
  · exact ⟨fun v2 po u => ipv6Len_split hw v2 po u,
      fun po s n h => ipv6Len_bounds h,
      fun v2 po => ipv6Len_ws_none hw v2 po⟩
  · exact ⟨fun v2 po u => uuidLen_split hw v2 po u,
      fun po s n h => uuidLen_bounds h,
      fun v2 po => uuidLen_ws_none hw v2 po⟩
  · exact ⟨fun v2 po u => hexLen_split hw v2 po u,
      fun po s n h => hexLen_bounds h,
      fun v2 po => hexLen_ws_none hw v2 po⟩
  · exact ⟨fun v2 po u => versionLen_split hw v2 po u,
      fun po s n h => versionLen_bounds h,
      fun v2 po => versionLen_ws_none hw v2 po⟩
  · exact ⟨fun v2 po u => hashLen_split hw v2 po u,
      fun po s n h => @hashLen_bounds po s n h,
      fun v2 po => hashLen_ws_none hw v2 po⟩
  · exact ⟨fun v2 po u => numberLen_split hw v2 po u,
      fun po s n h => numberLen_bounds h,
      fun v2 po => numberLen_ws_none hw v2 po⟩

/-- C3: the templating invariance fails as stated.  The messages "err #1"
and "err 1" differ only in the tokens `#1` and `1`, which are matched by the
HASH_NUMBER and NUMBER masking patterns respectively (first two conjuncts),
yet `template_content` maps them to the different templates "err #<*>" and
"err <*>": the replacement of HASH_NUMBER keeps the `#`, so two logs
differing only in masked tokens need not produce identical templates. -/
theorem template_content_counterexample :
    hashLen true ['#', '1'] = some 2 ∧
    numberLen true ['1'] = some 1 ∧
    template_content ['e', 'r', 'r', ' ', '#', '1'] ≠
      template_content ['e', 'r', 'r', ' ', '1'] := by
  refine ⟨by decide, by decide, ?_⟩
  have h1 : template_content ['e', 'r', 'r', ' ', '#', '1'] =
      ['e', 'r', 'r', ' ', '#', '<', '*', '>'] := by
    simp [template_content, maskAll, maskMatchers, substPass, substGo,
      macLen, ipv4Len, ipv6Len, uuidLen, hexLen, versionLen, hashLen,
      numberLen, macGroups, ipv4Groups, ipv6Groups, uuidGroups, verGroups,
      numSign, numAfter, numFrac, runLen, headNonword, isWordCh, isDigitCh,
      isHexCh, isWsCh, collapseWs, stripWs]
  have h2 : template_content ['e', 'r', 'r', ' ', '1'] =
      ['e', 'r', 'r', ' ', '<', '*', '>'] := by
    simp [template_content, maskAll, maskMatchers, substPass, substGo,
      macLen, ipv4Len, ipv6Len, uuidLen, hexLen, versionLen, hashLen,
      numberLen, macGroups, ipv4Groups, ipv6Groups, uuidGroups, verGroups,
      numSign, numAfter, numFrac, runLen, headNonword, isWordCh, isDigitCh,
      isHexCh, isWsCh, collapseWs, stripWs]
  rw [h1, h2]
  decide

/-- C3 (amended): whitespace-delimited tokens with equal masked images are
interchangeable.  If two log messages differ only in a whitespace-delimited
token and the eight masking passes map the two tokens to the same masked
text, `template_content` produces identical templates for both messages. -/
theorem template_content_token_invariance (a t t2 b : List Char)
    (h : maskAll t = maskAll t2) :
    template_content (a ++ ' ' :: (t ++ ' ' :: b)) =
      template_content (a ++ ' ' :: (t2 ++ ' ' :: b)) := by
  rw [template_content, template_content]
  rw [maskAll_split (by decide) a (t ++ ' ' :: b),
    maskAll_split (by decide) a (t2 ++ ' ' :: b),
    maskAll_split (by decide) t b, maskAll_split (by decide) t2 b, h]

/-- Witness for the amended C3 theorem: "err #1 ok" and "err #23 ok" have
the same template, since `#1` and `#23` both mask to `#<*>`. -/
theorem template_content_token_invariance_witness :
    maskAll ['#', '1'] = maskAll ['#', '2', '3'] ∧
    template_content ['e', 'r', 'r', ' ', '#', '1', ' ', 'o', 'k'] =
      template_content ['e', 'r', 'r', ' ', '#', '2', '3', ' ', 'o', 'k'] := by
  have hm : maskAll ['#', '1'] = maskAll ['#', '2', '3'] := by
    simp [maskAll, maskMatchers, substPass, substGo,
      macLen, ipv4Len, ipv6Len, uuidLen, hexLen, versionLen, hashLen,
      numberLen, macGroups, ipv4Groups, ipv6Groups, uuidGroups, verGroups,
      numSign, numAfter, numFrac, runLen, headNonword, isWordCh, isDigitCh,
      isHexCh, isWsCh]
  exact ⟨hm, template_content_token_invariance ['e', 'r', 'r'] ['#', '1']
    ['#', '2', '3'] ['o', 'k'] hm⟩

end LogAnalyzer
